import Mathlib

/-!
Verification of the refine.py SQL-dump refiner.

Strings of the program are modelled as lists of characters (`Str`); the UTF-8
layer of the truncation step works on lists of Unicode code points (naturals),
matching Python's `str` / `bytes` split.  Regular expressions from the source
are embedded as deterministic scanners (the patterns involved have no
essential backtracking); Python's `\w` and `\s` classes are modelled over
their ASCII ranges.
-/

abbrev Str := List Char

def btick : Char := Char.ofNat 96

def isSpaceChar (c : Char) : Bool :=
  c = ' ' || c = '\t' || c = '\n' || c = '\r' || c.toNat = 11 || c.toNat = 12

def isWordChar (c : Char) : Bool := c.isAlphanum || c = '_'

def pyStrip (s : Str) : Str :=
  ((s.dropWhile isSpaceChar).reverse.dropWhile isSpaceChar).reverse

def rstripChar (t : Char) (s : Str) : Str := (s.reverse.dropWhile (· = t)).reverse

def lstripChar (t : Char) (s : Str) : Str := s.dropWhile (· = t)

def pyLower (s : Str) : Str := s.map Char.toLower

/-- Case-insensitive literal prefix match: on success returns the remainder. -/
def stripPrefixCI : Str → Str → Option Str
  | [], s => some s
  | _ :: _, [] => none
  | p :: ps, c :: cs => if c.toLower = p.toLower then stripPrefixCI ps cs else none

/-- Python `pat in s` substring containment. -/
def containsSub (pat : Str) : Str → Bool
  | [] => pat.isEmpty
  | c :: r => pat.isPrefixOf (c :: r) || containsSub pat r

/-- Python `s.split(sep)` for a one-character separator. -/
def splitOnChar (sep : Char) : Str → List Str
  | [] => [[]]
  | c :: r =>
    if c = sep then [] :: splitOnChar sep r
    else
      match splitOnChar sep r with
      | [] => [[c]]
      | h :: t => (c :: h) :: t

/-- Python `sep.join(parts)`. -/
def joinWith (sep : Str) : List Str → Str
  | [] => []
  | [x] => x
  | x :: y :: xs => x ++ sep ++ joinWith sep (y :: xs)

/-! ## UTF-8 encoding and decoding over code points

Models Python's `str.encode('utf-8')` / `bytes.decode('utf-8')` (the strict
codec: minimal encodings only, surrogates rejected, scalar values below
0x110000). -/

def ValidCp (c : Nat) : Prop := c < 0x110000 ∧ ¬(0xD800 ≤ c ∧ c < 0xE000)

instance (c : Nat) : Decidable (ValidCp c) := by unfold ValidCp; infer_instance

def utf8EncodeCp (c : Nat) : List Nat :=
  if c < 0x80 then [c]
  else if c < 0x800 then [0xC0 + c / 0x40, 0x80 + c % 0x40]
  else if c < 0x10000 then
    [0xE0 + c / 0x1000, 0x80 + c / 0x40 % 0x40, 0x80 + c % 0x40]
  else
    [0xF0 + c / 0x40000, 0x80 + c / 0x1000 % 0x40, 0x80 + c / 0x40 % 0x40,
     0x80 + c % 0x40]

def utf8Encode (s : List Nat) : List Nat := (s.map utf8EncodeCp).flatten

def isCont (b : Nat) : Prop := 0x80 ≤ b ∧ b < 0xC0

instance (b : Nat) : Decidable (isCont b) := by unfold isCont; infer_instance

/-- Decode one UTF-8 scalar from the front; strict (no overlong forms, no
surrogates, at most U+10FFFF). -/
def utf8DecodeChar : List Nat → Option (Nat × List Nat)
  | [] => none
  | b :: bs =>
    if b < 0x80 then some (b, bs)
    else if b < 0xE0 then
      match bs with
      | b1 :: r =>
        if isCont b1 then
          let c := (b - 0xC0) * 0x40 + (b1 - 0x80)
          if 0x80 ≤ c then some (c, r) else none
        else none
      | [] => none
    else if b < 0xF0 then
      match bs with
      | b1 :: b2 :: r =>
        if isCont b1 ∧ isCont b2 then
          let c := (b - 0xE0) * 0x1000 + (b1 - 0x80) * 0x40 + (b2 - 0x80)
          if 0x800 ≤ c ∧ ¬(0xD800 ≤ c ∧ c < 0xE000) then some (c, r) else none
        else none
      | _ => none
    else if b < 0xF8 then
      match bs with
      | b1 :: b2 :: b3 :: r =>
        if isCont b1 ∧ isCont b2 ∧ isCont b3 then
          let c := (b - 0xF0) * 0x40000 + (b1 - 0x80) * 0x1000 +
                   (b2 - 0x80) * 0x40 + (b3 - 0x80)
          if 0x10000 ≤ c ∧ c < 0x110000 then some (c, r) else none
        else none
      | _ => none
    else none

set_option maxRecDepth 4096

theorem utf8DecodeChar_length {l : List Nat} {c : Nat} {r : List Nat}
    (h : utf8DecodeChar l = some (c, r)) : r.length < l.length := by
  match l with
  | [] => simp [utf8DecodeChar] at h
  | b :: bs =>
    simp only [utf8DecodeChar] at h
    repeat' split at h
    all_goals simp_all
    all_goals omega

def utf8DecodeAux : Nat → List Nat → Option (List Nat)
  | _, [] => some []
  | 0, _ :: _ => none
  | f + 1, b :: bs =>
    match utf8DecodeChar (b :: bs) with
    | some (c, r) => (utf8DecodeAux f r).map (fun t => c :: t)
    | none => none

def utf8Decode (l : List Nat) : Option (List Nat) := utf8DecodeAux l.length l

theorem utf8DecodeAux_fuel :
    ∀ (f g : Nat) (l : List Nat), l.length ≤ f → l.length ≤ g →
      utf8DecodeAux f l = utf8DecodeAux g l := by
  intro f
  induction f with
  | zero =>
    intro g l hf hg
    match l with
    | [] => cases g <;> rfl
    | _ :: _ => simp at hf
  | succ f ih =>
    intro g l hf hg
    match l with
    | [] => cases g <;> rfl
    | b :: bs =>
      match g with
      | 0 => simp at hg
      | g + 1 =>
        simp only [utf8DecodeAux]
        cases hdc : utf8DecodeChar (b :: bs) with
        | none => rfl
        | some p =>
          obtain ⟨c, r⟩ := p
          have hlen : r.length < bs.length + 1 := utf8DecodeChar_length hdc
          simp only [List.length_cons] at hf hg
          have hr := ih g r (by omega) (by omega)
          simp [hr]

theorem utf8Decode_cons (b : Nat) (bs : List Nat) :
    utf8Decode (b :: bs) =
      match utf8DecodeChar (b :: bs) with
      | some (c, r) => (utf8Decode r).map (fun t => c :: t)
      | none => none := by
  show utf8DecodeAux (bs.length + 1) (b :: bs) = _
  simp only [utf8DecodeAux]
  cases hdc : utf8DecodeChar (b :: bs) with
  | none => rfl
  | some p =>
    obtain ⟨c, r⟩ := p
    have hlen : r.length < bs.length + 1 := utf8DecodeChar_length hdc
    show Option.map _ (utf8DecodeAux bs.length r) = Option.map _ (utf8Decode r)
    rw [utf8DecodeAux_fuel bs.length r.length r (by omega) (by omega)]
    rfl

theorem utf8EncodeCp_ne_nil (c : Nat) : utf8EncodeCp c ≠ [] := by
  unfold utf8EncodeCp
  repeat' split
  all_goals simp

/-- Decoding one scalar is left inverse to encoding: a successful decode
reconstructs exactly the bytes consumed, and the scalar is valid. -/
theorem utf8DecodeChar_sound {l : List Nat} {c : Nat} {r : List Nat}
    (h : utf8DecodeChar l = some (c, r)) :
    utf8EncodeCp c ++ r = l ∧ ValidCp c := by
  match l with
  | [] => simp [utf8DecodeChar] at h
  | b :: bs =>
    simp only [utf8DecodeChar] at h
    split at h
    · -- one byte
      cases h
      constructor
      · simp only [utf8EncodeCp]
        rw [if_pos (by omega)]
        rfl
      · unfold ValidCp; omega
    · split at h
      · -- two bytes
        match bs with
        | [] => simp at h
        | b1 :: r1 =>
          simp only at h
          split at h
          · split at h
            · cases h
              rename_i hb80 hbE0 hcont hge
              unfold isCont at hcont
              constructor
              · simp only [utf8EncodeCp]
                rw [if_neg (by omega), if_pos (by omega)]
                simp only [List.cons_append, List.nil_append, List.cons.injEq]
                refine ⟨by omega, by omega, trivial⟩
              · unfold ValidCp; omega
            · simp at h
          · simp at h
      · split at h
        · -- three bytes
          match bs with
          | [] => simp at h
          | [b1] => simp at h
          | b1 :: b2 :: r2 =>
            simp only at h
            split at h
            · split at h
              · cases h
                rename_i hb80 hbE0 hbF0 hcont hrange
                obtain ⟨hc1, hc2⟩ := hcont
                unfold isCont at hc1 hc2
                constructor
                · simp only [utf8EncodeCp]
                  rw [if_neg (by omega), if_neg (by omega), if_pos (by omega)]
                  simp only [List.cons_append, List.nil_append, List.cons.injEq]
                  refine ⟨by omega, by omega, by omega, trivial⟩
                · unfold ValidCp; omega
              · simp at h
            · simp at h
        · split at h
          · -- four bytes
            match bs with
            | [] => simp at h
            | [b1] => simp at h
            | [b1, b2] => simp at h
            | b1 :: b2 :: b3 :: r3 =>
              simp only at h
              split at h
              · split at h
                · cases h
                  rename_i hb80 hbE0 hbF0 hbF8 hcont hrange
                  obtain ⟨hc1, hc2, hc3⟩ := hcont
                  unfold isCont at hc1 hc2 hc3
                  constructor
                  · simp only [utf8EncodeCp]
                    rw [if_neg (by omega), if_neg (by omega), if_neg (by omega)]
                    simp only [List.cons_append, List.nil_append, List.cons.injEq]
                    refine ⟨by omega, by omega, by omega, by omega, trivial⟩
                  · unfold ValidCp; omega
                · simp at h
              · simp at h
          · simp at h

/-- Decoding is right inverse to encoding, one scalar at a time. -/
theorem utf8DecodeChar_complete {c : Nat} (hc : ValidCp c) (r : List Nat) :
    utf8DecodeChar (utf8EncodeCp c ++ r) = some (c, r) := by
  obtain ⟨hlt, hsur⟩ := hc
  by_cases h1 : c < 0x80
  · simp only [utf8EncodeCp]
    rw [if_pos h1]
    simp only [List.cons_append, List.nil_append, utf8DecodeChar]
    rw [if_pos h1]
  · by_cases h2 : c < 0x800
    · simp only [utf8EncodeCp]
      rw [if_neg h1, if_pos h2]
      simp only [List.cons_append, List.nil_append, utf8DecodeChar]
      rw [if_neg (by omega), if_pos (by omega), if_pos (by unfold isCont; omega),
        if_pos (by omega)]
      simp only [Option.some.injEq, Prod.mk.injEq]
      constructor
      · omega
      · trivial
    · by_cases h3 : c < 0x10000
      · simp only [utf8EncodeCp]
        rw [if_neg h1, if_neg h2, if_pos h3]
        simp only [List.cons_append, List.nil_append, utf8DecodeChar]
        rw [if_neg (by omega), if_neg (by omega), if_pos (by omega),
          if_pos (by unfold isCont; constructor <;> omega),
          if_pos (by constructor <;> omega)]
        simp only [Option.some.injEq, Prod.mk.injEq]
        constructor
        · omega
        · trivial
      · simp only [utf8EncodeCp]
        rw [if_neg h1, if_neg h2, if_neg h3]
        simp only [List.cons_append, List.nil_append, utf8DecodeChar]
        rw [if_neg (by omega), if_neg (by omega), if_neg (by omega),
          if_pos (by omega), if_pos (by unfold isCont; refine ⟨⟨?_, ?_⟩, ⟨?_, ?_⟩, ?_, ?_⟩ <;> omega),
          if_pos (by constructor <;> omega)]
        simp only [Option.some.injEq, Prod.mk.injEq]
        constructor
        · omega
        · trivial

theorem utf8Decode_sound_aux :
    ∀ (n : Nat) (l t : List Nat), l.length ≤ n → utf8Decode l = some t →
      utf8Encode t = l ∧ ∀ c ∈ t, ValidCp c := by
  intro n
  induction n with
  | zero =>
    intro l t hl h
    match l with
    | [] =>
      simp only [utf8Decode, utf8DecodeAux, List.length_nil, Option.some.injEq] at h
      subst h
      exact ⟨rfl, by simp⟩
    | _ :: _ => simp at hl
  | succ n ih =>
    intro l t hl h
    match l with
    | [] =>
      simp only [utf8Decode, utf8DecodeAux, List.length_nil, Option.some.injEq] at h
      subst h
      exact ⟨rfl, by simp⟩
    | b :: bs =>
      rw [utf8Decode_cons] at h
      cases hdc : utf8DecodeChar (b :: bs) with
      | none => simp [hdc] at h
      | some p =>
        obtain ⟨c, r⟩ := p
        simp only [hdc] at h
        cases hur : utf8Decode r with
        | none => rw [hur] at h; simp at h
        | some t' =>
          rw [hur] at h
          simp only [Option.map_some', Option.some.injEq] at h
          subst h
          have hlen := utf8DecodeChar_length hdc
          simp only [List.length_cons] at hl hlen
          obtain ⟨henc, hval⟩ := ih r t' (by omega) hur
          obtain ⟨heq, hc⟩ := utf8DecodeChar_sound hdc
          constructor
          · show (List.map utf8EncodeCp (c :: t')).flatten = b :: bs
            simp only [List.map_cons, List.flatten_cons]
            rw [show (List.map utf8EncodeCp t').flatten = utf8Encode t' from rfl, henc]
            exact heq
          · intro x hx
            rcases List.mem_cons.mp hx with hx | hx
            · subst hx; exact hc
            · exact hval x hx

/-- A successful whole-string decode reconstructs exactly the input bytes and
yields only valid scalars. -/
theorem utf8Decode_sound {l t : List Nat} (h : utf8Decode l = some t) :
    utf8Encode t = l ∧ ∀ c ∈ t, ValidCp c :=
  utf8Decode_sound_aux l.length l t le_rfl h

/-- Decoding inverts encoding on strings of valid scalars. -/
theorem utf8Decode_complete :
    ∀ (s : List Nat), (∀ c ∈ s, ValidCp c) → utf8Decode (utf8Encode s) = some s := by
  intro s
  induction s with
  | nil => intro _; rfl
  | cons c s' ih =>
    intro hv
    have hc : ValidCp c := hv c (List.mem_cons_self c s')
    have hs' : ∀ x ∈ s', ValidCp x := fun x hx => hv x (List.mem_cons_of_mem c hx)
    have henc : utf8Encode (c :: s') = utf8EncodeCp c ++ utf8Encode s' := by
      show (List.map utf8EncodeCp (c :: s')).flatten = _
      simp [utf8Encode]
    rw [henc]
    cases he : utf8EncodeCp c with
    | nil => exact absurd he (utf8EncodeCp_ne_nil c)
    | cons b bs =>
      have hdc : utf8DecodeChar (utf8EncodeCp c ++ utf8Encode s') = some (c, utf8Encode s') :=
        utf8DecodeChar_complete hc (utf8Encode s')
      rw [he] at hdc
      simp only [List.cons_append] at hdc
      simp only [List.cons_append]
      rw [utf8Decode_cons]
      simp only [hdc]
      rw [ih hs']
      rfl

/-! ## The byte-truncation step of truncate_value

`byteTruncate` models lines 242-250 of refine.py: encode to UTF-8, cut to
`maxLen` bytes, then drop trailing bytes one at a time until the remainder
decodes (`dropToValid`, the `while True / except UnicodeDecodeError` loop). -/

def dropToValidAux : Nat → List Nat → List Nat
  | 0, _ => []
  | f + 1, l =>
    match utf8Decode l with
    | some t => t
    | none => dropToValidAux f l.dropLast

def dropToValid (l : List Nat) : List Nat := dropToValidAux (l.length + 1) l

def byteTruncate (s : List Nat) (maxLen : Nat) : List Nat :=
  let bs := utf8Encode s
  if bs.length > maxLen then dropToValid (bs.take maxLen) else s

theorem dropToValidAux_spec :
    ∀ (f : Nat) (l : List Nat), l.length < f →
      utf8Decode (utf8Encode (dropToValidAux f l)) = some (dropToValidAux f l) ∧
      (utf8Encode (dropToValidAux f l)).length ≤ l.length := by
  intro f
  induction f with
  | zero => intro l hl; omega
  | succ f ih =>
    intro l hl
    simp only [dropToValidAux]
    cases hd : utf8Decode l with
    | some t =>
      obtain ⟨henc, hval⟩ := utf8Decode_sound hd
      simp only [hd]
      rw [henc]
      exact ⟨hd, le_rfl⟩
    | none =>
      have hne : l ≠ [] := by
        intro hnil
        rw [hnil] at hd
        simp [utf8Decode, utf8DecodeAux] at hd
      have hlen : l.dropLast.length < f := by
        have := List.length_dropLast l
        have : l.dropLast.length = l.length - 1 := List.length_dropLast l
        have hpos : 0 < l.length := List.length_pos.mpr hne
        omega
      obtain ⟨h1, h2⟩ := ih l.dropLast hlen
      simp only [hd]
      refine ⟨h1, ?_⟩
      have := List.length_dropLast l
      omega

theorem dropToValid_spec (l : List Nat) :
    utf8Decode (utf8Encode (dropToValid l)) = some (dropToValid l) ∧
    (utf8Encode (dropToValid l)).length ≤ l.length :=
  dropToValidAux_spec (l.length + 1) l (by omega)

/-- Claim C1.  For every string `s` (a list of valid Unicode scalars) and every
`varchar_target_length` N in 100 or 191, the byte-truncation step of
`truncate_value` returns a string that decodes as valid UTF-8 (its UTF-8
encoding decodes back to itself), whose UTF-8 byte length is at most N; and if
`s`'s UTF-8 byte length is already at most N, the step returns `s` unchanged. -/
theorem c1_byte_truncation (s : List Nat) (N : Nat)
    (hvalid : ∀ c ∈ s, ValidCp c) (hN : N = 100 ∨ N = 191) :
    utf8Decode (utf8Encode (byteTruncate s N)) = some (byteTruncate s N) ∧
    (utf8Encode (byteTruncate s N)).length ≤ N ∧
    ((utf8Encode s).length ≤ N → byteTruncate s N = s) := by
  unfold byteTruncate
  by_cases hlen : (utf8Encode s).length > N
  · rw [if_pos hlen]
    obtain ⟨h1, h2⟩ := dropToValid_spec ((utf8Encode s).take N)
    refine ⟨h1, ?_, ?_⟩
    · have : ((utf8Encode s).take N).length ≤ N := by
        simp [List.length_take]
      omega
    · intro hle; omega
  · rw [if_neg hlen]
    exact ⟨utf8Decode_complete s hvalid, by omega, fun _ => rfl⟩

theorem c1_byte_truncation_witness :
    (∀ c ∈ [104, 233, 19990, 128512], ValidCp c) ∧
    (utf8Decode (utf8Encode (byteTruncate [104, 233, 19990, 128512] 100)) =
        some (byteTruncate [104, 233, 19990, 128512] 100) ∧
      (utf8Encode (byteTruncate [104, 233, 19990, 128512] 100)).length ≤ 100 ∧
      ((utf8Encode [104, 233, 19990, 128512]).length ≤ 100 →
        byteTruncate [104, 233, 19990, 128512] 100 = [104, 233, 19990, 128512])) :=
  ⟨by decide, c1_byte_truncation [104, 233, 19990, 128512] 100 (by decide) (Or.inl rfl)⟩

/-! ## Column metadata model (refine.py parse_column_definition output) -/

structure ColumnDescriptor where
  name : Str
  type : Str
  nullable : Bool
  default : Option Str
  index : Option Nat
  varchar_length : Option Nat
  enum_values : Option (List Str)
deriving DecidableEq

/-! ## Step 3 helpers: get_fallback, sanitize_value, truncate_value, fix_row -/

/-- refine.py lines 215-227.  Note the branch order: `startswith('date')` is
tested before `startswith('datetime')`. -/
def get_fallback (dtype : Str) (enum_values : Option (List Str)) : Str :=
  let d := pyLower dtype
  match enum_values with
  | some (e :: _) => '\'' :: (e ++ ['\''])
  | _ =>
    if ("int".toList).isPrefixOf d then "'0'".toList
    else if containsSub "float".toList d || containsSub "double".toList d ||
        containsSub "decimal".toList d then "'0.0'".toList
    else if ("date".toList).isPrefixOf d then "'1970-01-01'".toList
    else if ("datetime".toList).isPrefixOf d || ("timestamp".toList).isPrefixOf d then
      "'1970-01-01 00:00:00'".toList
    else "''".toList

def isStrippedCtl (c : Char) : Bool :=
  c.toNat ≤ 8 || c.toNat = 11 || c.toNat = 12 || (14 ≤ c.toNat && c.toNat ≤ 31)

/-- refine.py lines 229-230: strip control bytes 0x00-0x08, 0x0B, 0x0C,
0x0E-0x1F. -/
def sanitize_value (inner : Str) : Str := inner.filter (fun c => !(isStrippedCtl c))

/-- Python single-character `str.replace`. -/
def pyReplaceChar (pat : Char) (rep : Str) (s : Str) : Str :=
  (s.map (fun c => if c = pat then rep else [c])).flatten

/-- refine.py lines 251-252: double backslashes, double single quotes, wrap in
single quotes. -/
def escape_and_quote (inner : Str) : Str :=
  '\'' :: (pyReplaceChar '\'' "''".toList (pyReplaceChar '\\' "\\\\".toList inner) ++ ['\''])

def is_quoted (value : Str) : Bool :=
  (("'".toList).isPrefixOf value && ("'".toList).isSuffixOf value) ||
  (("\"".toList).isPrefixOf value && ("\"".toList).isSuffixOf value)

/-- The character-level wrapper around the code-point truncation step
(`inner.encode('utf-8')` / `.decode('utf-8')`). -/
def byteTruncateChars (s : Str) (n : Nat) : Str :=
  (byteTruncate (s.map Char.toNat) n).map Char.ofNat

/-- refine.py lines 232-253. -/
def truncate_value (value : Str) (col : ColumnDescriptor) : Str :=
  if is_quoted value then
    let inner0 := (value.drop 1).dropLast
    let inner1 := sanitize_value inner0
    let inner2 :=
      match col.enum_values with
      | some (e :: es) => if inner1 ∈ e :: es then inner1 else e
      | _ => inner1
    let inner3 :=
      match col.varchar_length with
      | some (n + 1) => byteTruncateChars inner2 (n + 1)
      | _ => inner2
    escape_and_quote inner3
  else value

/-- One pass of the per-column repair loop body of fix_row (lines 282-291);
the loop itself is a fold of this over `column_info`. -/
def fixPart (parts : List Str) (col : ColumnDescriptor) : List Str :=
  match col.index with
  | none => parts
  | some idx =>
    if parts.length ≤ idx then parts
    else
      let val := parts.getD idx []
      if val = "''".toList || val = "\"\"".toList then
        parts.set idx
          (if col.nullable then "NULL".toList
           else
             match col.default with
             | some d => d
             | none => get_fallback col.type col.enum_values)
      else parts.set idx (truncate_value val col)

/-- The quote/escape-aware comma tokenizer of fix_row (lines 264-281). -/
def tokLoop (parts : List Str) (current : Str) (in_quotes esc : Bool)
    (quote_char : Char) : Str → List Str
  | [] => parts ++ [pyStrip current]
  | ch :: rest =>
    if esc then tokLoop parts (current ++ ['\\', ch]) in_quotes false quote_char rest
    else if ch = '\\' then tokLoop parts current in_quotes true quote_char rest
    else if ch = '\'' || ch = '"' then
      if !in_quotes then tokLoop parts (current ++ [ch]) true false ch rest
      else if ch = quote_char then tokLoop parts (current ++ [ch]) false false quote_char rest
      else tokLoop parts (current ++ [ch]) in_quotes false quote_char rest
    else if ch = ',' && !in_quotes then
      tokLoop (parts ++ [pyStrip current]) [] in_quotes false quote_char rest
    else tokLoop parts (current ++ [ch]) in_quotes false quote_char rest

def tokenizeRow (row : Str) : List Str := tokLoop [] [] false false (Char.ofNat 0) row

/-- refine.py lines 255-296. -/
def fix_row (row_line : Str) (column_info : List ColumnDescriptor) : Str :=
  let row0 := pyStrip row_line
  if !(("(".toList).isPrefixOf row0) then row_line
  else
    let ends_with_comma := (",".toList).isSuffixOf row0 || (",\n".toList).isSuffixOf row0
    let ends_with_semicolon := (");".toList).isSuffixOf row0
    let row1 :=
      if ends_with_comma then row0.dropLast
      else if ends_with_semicolon then row0.dropLast.dropLast
      else row0
    let row2 := rstripChar ')' (lstripChar '(' (pyStrip row1))
    let parts := tokenizeRow row2
    let parts2 := column_info.foldl fixPart parts
    let fixed := '(' :: joinWith ", ".toList parts2
    let fixed2 :=
      if ends_with_comma then fixed ++ "),".toList
      else if ends_with_semicolon then fixed ++ ");".toList
      else fixed ++ ")".toList
    fixed2 ++ "\n".toList

/-- Python `table_metadata.get(t, [])` over the metadata association list. -/
def mdGet (md : List (Str × List ColumnDescriptor)) (t : Str) : List ColumnDescriptor :=
  (md.lookup t).getD []

/-- Claim C2 (code bug).  For an empty quoted token on a non-nullable
`datetime` column without default, the code substitutes `'1970-01-01'`, not
`'1970-01-01 00:00:00'` as the claim (and the code's own unreachable
`startswith('datetime')` branch) states: `startswith('date')` is tested
first and shadows it. -/
theorem c2_fallback_datetime :
    fixPart ["''".toList]
      ⟨"created_at".toList, "datetime".toList, false, none, some 0, none, none⟩ =
      ["'1970-01-01'".toList] ∧
    get_fallback "datetime".toList none = "'1970-01-01'".toList ∧
    "'1970-01-01'".toList ≠ "'1970-01-01 00:00:00'".toList := by
  refine ⟨by decide, by decide, by decide⟩

/-- Claim C3.  For a column with enum values `e :: es` (and no varchar target
length, isolating the enum step) and a quoted non-empty token, the
control-stripped interior is replaced by the first enum value when it is not a
member of the list, and kept exactly when it is a member (exact,
case-sensitive list membership); either way the result is re-escaped and
single-quoted. -/
theorem c3_enum_substitution (v : Str) (col : ColumnDescriptor) (e : Str) (es : List Str)
    (hE : col.enum_values = some (e :: es)) (hv : col.varchar_length = none)
    (hq : is_quoted v = true) (hne : (v.drop 1).dropLast ≠ []) :
    (sanitize_value ((v.drop 1).dropLast) ∉ e :: es →
        truncate_value v col = escape_and_quote e) ∧
    (sanitize_value ((v.drop 1).dropLast) ∈ e :: es →
        truncate_value v col = escape_and_quote (sanitize_value ((v.drop 1).dropLast))) := by
  constructor
  · intro hmem
    simp only [truncate_value, hE, hv, hq, if_true]
    rw [if_neg hmem]
  · intro hmem
    simp only [truncate_value, hE, hv, hq, if_true]
    rw [if_pos hmem]

theorem c3_enum_substitution_witness :
    (sanitize_value (("'z'".toList.drop 1).dropLast) ∉ ["a".toList, "b".toList] →
        truncate_value "'z'".toList
          ⟨"status".toList, "enum('a','b')".toList, false, none, some 2, none,
            some ["a".toList, "b".toList]⟩ = escape_and_quote "a".toList) ∧
    (sanitize_value (("'z'".toList.drop 1).dropLast) ∈ ["a".toList, "b".toList] →
        truncate_value "'z'".toList
          ⟨"status".toList, "enum('a','b')".toList, false, none, some 2, none,
            some ["a".toList, "b".toList]⟩ =
          escape_and_quote (sanitize_value (("'z'".toList.drop 1).dropLast))) :=
  c3_enum_substitution "'z'".toList _ "a".toList ["b".toList] rfl rfl (by decide) (by decide)

/-- The comma counter with exactly the tokenizer's quote/escape transitions:
counts the commas that occur outside quoted runs. -/
def countCommasOutside (in_quotes esc : Bool) (quote_char : Char) : Str → Nat
  | [] => 0
  | ch :: rest =>
    if esc then countCommasOutside in_quotes false quote_char rest
    else if ch = '\\' then countCommasOutside in_quotes true quote_char rest
    else if ch = '\'' || ch = '"' then
      if !in_quotes then countCommasOutside true false ch rest
      else if ch = quote_char then countCommasOutside false false quote_char rest
      else countCommasOutside in_quotes false quote_char rest
    else if ch = ',' && !in_quotes then countCommasOutside in_quotes false quote_char rest + 1
    else countCommasOutside in_quotes false quote_char rest

/-- The final quote state of the tokenizer's scan (false = balanced). -/
def quoteStateAfter (in_quotes esc : Bool) (quote_char : Char) : Str → Bool
  | [] => in_quotes
  | ch :: rest =>
    if esc then quoteStateAfter in_quotes false quote_char rest
    else if ch = '\\' then quoteStateAfter in_quotes true quote_char rest
    else if ch = '\'' || ch = '"' then
      if !in_quotes then quoteStateAfter true false ch rest
      else if ch = quote_char then quoteStateAfter false false quote_char rest
      else quoteStateAfter in_quotes false quote_char rest
    else quoteStateAfter in_quotes false quote_char rest

theorem tokLoop_length :
    ∀ (s : Str) (parts : List Str) (current : Str) (inq esc : Bool) (qc : Char),
      (tokLoop parts current inq esc qc s).length =
        parts.length + countCommasOutside inq esc qc s + 1 := by
  intro s
  induction s with
  | nil => intro parts current inq esc qc; simp [tokLoop, countCommasOutside]
  | cons ch rest ih =>
    intro parts current inq esc qc
    simp only [tokLoop, countCommasOutside]
    repeat' split
    all_goals simp [ih]
    all_goals omega

/-- Claim C4.  For a row-interior string with balanced quotes, the tokenizer
produces exactly (number of commas outside quoted runs) + 1 tokens, where
"outside quoted runs" is determined by the same backslash-escape /
quote-toggling rules the tokenizer itself applies. -/
theorem c4_tokenizer_count (row : Str)
    (hbal : quoteStateAfter false false (Char.ofNat 0) row = false) :
    (tokenizeRow row).length = countCommasOutside false false (Char.ofNat 0) row + 1 := by
  unfold tokenizeRow
  rw [tokLoop_length]
  simp

theorem c4_tokenizer_count_witness :
    quoteStateAfter false false (Char.ofNat 0) "1,'a,b',NULL".toList = false ∧
    (tokenizeRow "1,'a,b',NULL".toList).length =
      countCommasOutside false false (Char.ofNat 0) "1,'a,b',NULL".toList + 1 :=
  ⟨by decide, c4_tokenizer_count "1,'a,b',NULL".toList (by decide)⟩

/-- Modelled from the spec's words (passthrough for unknown tables): the row
is unchanged except for the whitespace/line-join normalization that buffering
introduces - strip, detach the trailing separator, strip the outer
parentheses, split on top-level commas, rejoin with a comma and a space,
reattach.  This is `fix_row` with no column-level repair at all. -/
def specNormalizeRow (row_line : Str) : Str :=
  let row0 := pyStrip row_line
  if !(("(".toList).isPrefixOf row0) then row_line
  else
    let ends_with_comma := (",".toList).isSuffixOf row0 || (",\n".toList).isSuffixOf row0
    let ends_with_semicolon := (");".toList).isSuffixOf row0
    let row1 :=
      if ends_with_comma then row0.dropLast
      else if ends_with_semicolon then row0.dropLast.dropLast
      else row0
    let row2 := rstripChar ')' (lstripChar '(' (pyStrip row1))
    let parts := tokenizeRow row2
    let fixed := '(' :: joinWith ", ".toList parts
    let fixed2 :=
      if ends_with_comma then fixed ++ "),".toList
      else if ends_with_semicolon then fixed ++ ");".toList
      else fixed ++ ")".toList
    fixed2 ++ "\n".toList

/-- Claim C8.  A row whose table is absent from the metadata map gets the
empty column list, so the repair fold is the identity: the emitted row is the
input up to the buffering normalization only (no column-level repair). -/
theorem c8_unknown_table_passthrough (md : List (Str × List ColumnDescriptor))
    (t : Str) (row : Str) (h : md.lookup t = none) :
    fix_row row (mdGet md t) = specNormalizeRow row := by
  unfold mdGet
  rw [h]
  rfl

theorem c8_unknown_table_passthrough_witness :
    ([(("users".toList : Str), ([] : List ColumnDescriptor))].lookup "orders".toList =
      none) ∧
    fix_row "(1, 'x'),\n".toList
        (mdGet [(("users".toList : Str), ([] : List ColumnDescriptor))] "orders".toList) =
      specNormalizeRow "(1, 'x'),\n".toList :=
  ⟨by decide,
   c8_unknown_table_passthrough [(("users".toList : Str), ([] : List ColumnDescriptor))]
     "orders".toList "(1, 'x'),\n".toList (by decide)⟩

/-! ## Step 2: the quote-aware INSERT partitioner (write_insert_statements) -/

/-- The shared shape of the target-extraction regexes: case-insensitive
keyword, whitespace, keyword, whitespace, optional backtick or double quote,
then a captured word-character run. -/
def matchTwoKwAt (k1 k2 : Str) (s : Str) : Option Str :=
  match stripPrefixCI k1 s with
  | none => none
  | some r1 =>
    let sp1 := r1.takeWhile isSpaceChar
    if sp1 = [] then none
    else
      match stripPrefixCI k2 (r1.drop sp1.length) with
      | none => none
      | some r2 =>
        let sp2 := r2.takeWhile isSpaceChar
        if sp2 = [] then none
        else
          let r3 := r2.drop sp2.length
          let r4 :=
            match r3 with
            | c :: rest => if c = btick || c = '"' then rest else r3
            | [] => r3
          let name := r4.takeWhile isWordChar
          if name = [] then none else some name

/-- The `insert\s+into\s+[backtick or quote]?(\w+)` anchored match of
write_insert_statements. -/
def extract_table (s : Str) : Option Str := matchTwoKwAt "insert".toList "into".toList s

/-- Python `"-- " + stmt.replace("\n", "\n-- ")`. -/
def commentize (stmt : Str) : Str := "-- ".toList ++ pyReplaceChar '\n' "\n-- ".toList stmt

/-- What one captured statement contributes to the insert-only stream and to
the side-channel (refine.py lines 192-204). -/
def emitStmt (stmt : Str) : Str × Str :=
  match extract_table (pyStrip stmt) with
  | some table_name =>
    if ("v_".toList).isPrefixOf (pyLower table_name) then
      ([], commentize stmt ++ ['\n'])
    else (pyStrip stmt ++ ['\n'], [])
  | none => ([], commentize stmt ++ ['\n'])

/-- The character-level scan of write_insert_statements (lines 159-205):
statements start at a literal case-insensitive "insert into", quote and
escape flags evolve only inside a statement, and a top-level semicolon ends
the statement, which is then classified by `emitStmt`. -/
def scanLoop (s : Str) (curr : Option Str) (in_single in_double escape : Bool)
    (out extra : Str) : Str × Str :=
  match s with
  | [] => (out, extra)
  | ch :: rest =>
    match curr with
    | none =>
      if pyLower ((ch :: rest).take 11) = "insert into".toList then
        scanLoop ((ch :: rest).drop 11) (some ((ch :: rest).take 11))
          in_single in_double escape out extra
      else scanLoop rest none in_single in_double escape out extra
    | some acc0 =>
      let st :=
        if escape then (in_single, in_double, false)
        else if ch = '\\' && (in_single || in_double) then (in_single, in_double, true)
        else if ch = '\'' && !in_double then (!in_single, in_double, false)
        else if ch = '"' && !in_single then (in_single, !in_double, false)
        else (in_single, in_double, false)
      if ch = ';' && !st.1 && !st.2.1 then
        let oe := emitStmt (acc0 ++ [ch])
        scanLoop rest none st.1 st.2.1 st.2.2 (out ++ oe.1) (extra ++ oe.2)
      else scanLoop rest (some (acc0 ++ [ch])) st.1 st.2.1 st.2.2 out extra
termination_by s.length
decreasing_by
  · simp only [List.length_drop, List.length_cons]
    omega
  · simp only [List.length_cons]
    omega
  · simp only [List.length_cons]
    omega
  · simp only [List.length_cons]
    omega

def write_insert_statements (s : Str) : Str × Str :=
  scanLoop s none false false false [] []

theorem joinWith_cons_cons (sep x y : Str) (xs : List Str) :
    joinWith sep (x :: y :: xs) = x ++ sep ++ joinWith sep (y :: xs) := rfl

theorem joinWith_single (sep x : Str) : joinWith sep [x] = x := rfl

theorem pyReplaceChar_cons (pat : Char) (rep : Str) (c : Char) (r : Str) :
    pyReplaceChar pat rep (c :: r) =
      (if c = pat then rep else [c]) ++ pyReplaceChar pat rep r := by
  simp [pyReplaceChar]

theorem splitOnChar_ne_nil (sep : Char) : ∀ s : Str, splitOnChar sep s ≠ [] := by
  intro s
  match s with
  | [] => simp [splitOnChar]
  | c :: r =>
    simp only [splitOnChar]
    split
    · simp
    · split <;> simp

/-- Python `s.replace("\n", sep)` is joining the '\n'-split parts with `sep`. -/
theorem replace_eq_join (rep : Str) :
    ∀ s : Str, pyReplaceChar '\n' rep s = joinWith rep (splitOnChar '\n' s) := by
  intro s
  induction s with
  | nil => simp [pyReplaceChar, splitOnChar, joinWith]
  | cons c r ih =>
    rw [pyReplaceChar_cons]
    by_cases hc : c = '\n'
    · subst hc
      simp only [splitOnChar, eq_self_iff_true, if_true]
      cases hs : splitOnChar '\n' r with
      | nil => exact absurd hs (splitOnChar_ne_nil '\n' r)
      | cons h t =>
        rw [hs] at ih
        rw [joinWith_cons_cons, ih]
        simp
    · simp only [splitOnChar, if_neg hc]
      cases hs : splitOnChar '\n' r with
      | nil => exact absurd hs (splitOnChar_ne_nil '\n' r)
      | cons h t =>
        rw [hs] at ih
        cases t with
        | nil =>
          simp only [joinWith_single] at ih ⊢
          rw [ih]
          simp
        | cons y t' =>
          rw [joinWith_cons_cons] at ih
          rw [joinWith_cons_cons, ih]
          simp

theorem joinWith_map_prepend (pre sep : Str) :
    ∀ L : List Str, L ≠ [] →
      joinWith sep (L.map (fun l => pre ++ l)) = pre ++ joinWith (sep ++ pre) L := by
  intro L
  induction L with
  | nil => intro h; exact absurd rfl h
  | cons x t ih =>
    intro _
    cases t with
    | nil => simp [joinWith_single]
    | cons y t' =>
      simp only [List.map_cons]
      rw [joinWith_cons_cons, joinWith_cons_cons]
      have ih2 := ih (by simp)
      simp only [List.map_cons] at ih2
      rw [ih2]
      simp [List.append_assoc]

/-- Prefixing every '\n'-separated line with `pre` and rejoining is the same
as Python's `pre + s.replace("\n", "\n" + pre)`. -/
theorem join_prefix_split (pre : Str) (s : Str) :
    joinWith ['\n'] ((splitOnChar '\n' s).map (fun l => pre ++ l)) =
      pre ++ pyReplaceChar '\n' ('\n' :: pre) s := by
  rw [joinWith_map_prepend pre ['\n'] (splitOnChar '\n' s) (splitOnChar_ne_nil '\n' s)]
  rw [replace_eq_join ('\n' :: pre) s]
  rfl

/-- Claim C5.  A captured statement whose target starts with "v_"
(case-insensitively) or whose target pattern fails to match contributes
nothing to the insert-only stream and is appended to the side-channel with
every line prefixed "-- "; otherwise the trimmed statement goes unchanged to
the insert-only stream and nothing to the side-channel. -/
theorem c5_partition_classify (stmt : Str) :
    (∀ t, extract_table (pyStrip stmt) = some t →
        ("v_".toList).isPrefixOf (pyLower t) = true →
        emitStmt stmt = ([], commentize stmt ++ ['\n'])) ∧
    (extract_table (pyStrip stmt) = none →
        emitStmt stmt = ([], commentize stmt ++ ['\n'])) ∧
    (∀ t, extract_table (pyStrip stmt) = some t →
        ("v_".toList).isPrefixOf (pyLower t) = false →
        emitStmt stmt = (pyStrip stmt ++ ['\n'], [])) ∧
    commentize stmt =
      joinWith ['\n'] ((splitOnChar '\n' stmt).map (fun l => "-- ".toList ++ l)) := by
  refine ⟨?_, ?_, ?_, ?_⟩
  · intro t ht hv
    simp only [emitStmt, ht]
    rw [hv]
    simp
  · intro ht
    simp only [emitStmt, ht]
  · intro t ht hv
    simp only [emitStmt, ht]
    rw [hv]
    simp
  · rw [join_prefix_split]
    rfl

theorem c5_partition_classify_witness :
    extract_table (pyStrip "INSERT INTO v_summary VALUES (1,2);".toList) =
      some "v_summary".toList ∧
    ("v_".toList).isPrefixOf (pyLower "v_summary".toList) = true ∧
    emitStmt "INSERT INTO v_summary VALUES (1,2);".toList =
      ([], commentize "INSERT INTO v_summary VALUES (1,2);".toList ++ ['\n']) :=
  ⟨by decide, by decide,
   (c5_partition_classify "INSERT INTO v_summary VALUES (1,2);".toList).1
     "v_summary".toList (by decide) (by decide)⟩

/-! ## Step 4: final concatenation (refine.py lines 328-334) -/

def wrapFragment (name content : Str) : Str :=
  "-- Start of ".toList ++ name ++ "\n".toList ++ content ++
    "\n-- End of ".toList ++ name ++ "\n\n".toList

/-- The concatenation loop: for each of the three artifacts, in order, write
the wrapped content when the artifact exists. -/
def assembleFinal (frags : List (Str × Option Str)) : Str :=
  frags.foldl
    (fun acc p =>
      match p.2 with
      | some c => acc ++ wrapFragment p.1 c
      | none => acc) []

def finalOutput (base : Str) (createC refinedC extraC : Option Str) : Str :=
  assembleFinal
    [(base ++ "_0.sql".toList, createC),
     (base ++ "_temp_refined.sql".toList, refinedC),
     (base ++ "_temp_extra.sql".toList, extraC)]

/-- Written from the spec's words: an existing fragment is wrapped in
Start/End markers, an absent fragment produces nothing at all. -/
def specOptWrap (name : Str) : Option Str → Str
  | some c => wrapFragment name c
  | none => []

/-- Claim C9.  The final output is the concatenation, in fixed order, of the
schema block, the repaired insert stream and the side-channel block, each
existing fragment wrapped in Start/End markers, an absent fragment silently
skipped with no markers. -/
theorem c9_final_concatenation (base : Str) (c r e : Option Str) :
    finalOutput base c r e =
      specOptWrap (base ++ "_0.sql".toList) c ++
      specOptWrap (base ++ "_temp_refined.sql".toList) r ++
      specOptWrap (base ++ "_temp_extra.sql".toList) e := by
  cases c <;> cases r <;> cases e <;> simp [finalOutput, assembleFinal, specOptWrap]

/-! ## Step 1 helper: adjust_varchar_and_key_length (refine.py lines 31-40) -/

def natOfDigits (ds : Str) : Nat := ds.foldl (fun a c => a * 10 + (c.toNat - 48)) 0

/-- One attempt of the search regex `` `(\w+)`\s+varchar\((\d+)\) ``
(case-insensitive on the keyword) at the head of `s`, returning the declared
length. -/
def matchVarcharDecl (s : Str) : Option Nat :=
  match s with
  | [] => none
  | c :: r =>
    if c = btick then
      let w := r.takeWhile isWordChar
      if w = [] then none
      else
        match r.drop w.length with
        | c2 :: r2 =>
          if c2 = btick then
            let sp := r2.takeWhile isSpaceChar
            if sp = [] then none
            else
              match stripPrefixCI "varchar(".toList (r2.drop sp.length) with
              | some r3 =>
                let ds := r3.takeWhile Char.isDigit
                if ds = [] then none
                else
                  match r3.drop ds.length with
                  | c3 :: _ => if c3 = ')' then some (natOfDigits ds) else none
                  | [] => none
              | none => none
          else none
        | [] => none
    else none

/-- Python `re.search`: leftmost match attempt that succeeds. -/
def searchVarcharDecl : Str → Option Nat
  | [] => none
  | c :: r =>
    match matchVarcharDecl (c :: r) with
    | some n => some n
    | none => searchVarcharDecl r

/-- One attempt of the substitution regex `varchar\(\d+\)` (case-insensitive)
at the head of `s`, returning the remainder after the match. -/
def matchVarcharLen (s : Str) : Option Str :=
  match stripPrefixCI "varchar(".toList s with
  | some r =>
    let ds := r.takeWhile Char.isDigit
    if ds = [] then none
    else
      match r.drop ds.length with
      | c :: rest => if c = ')' then some rest else none
      | [] => none
  | none => none

theorem stripPrefixCI_length :
    ∀ (p s r : Str), stripPrefixCI p s = some r → s.length = p.length + r.length := by
  intro p
  induction p with
  | nil =>
    intro s r h
    simp only [stripPrefixCI, Option.some.injEq] at h
    subst h
    simp
  | cons pc pr ih =>
    intro s r h
    match s with
    | [] => simp [stripPrefixCI] at h
    | c :: cs =>
      simp only [stripPrefixCI] at h
      split at h
      · have := ih cs r h
        simp only [List.length_cons]
        omega
      · simp at h

theorem matchVarcharLen_length {s rest : Str} (h : matchVarcharLen s = some rest) :
    rest.length < s.length := by
  unfold matchVarcharLen at h
  cases hp : stripPrefixCI "varchar(".toList s with
  | none => rw [hp] at h; simp at h
  | some r =>
    rw [hp] at h
    have hlen := stripPrefixCI_length _ _ _ hp
    simp only at h
    split at h
    · simp at h
    · split at h
      · split at h
        · rename_i heq c rest' hdrop hc
          cases h
          have hd : (r.drop (r.takeWhile Char.isDigit).length).length = rest.length + 1 := by
            rw [hdrop]
            simp
          rw [List.length_drop] at hd
          simp only [List.length_cons] at hlen
          omega
        · simp at h
      · simp at h

def subVarcharAux (rep : Str) : Nat → Str → Str
  | 0, s => s
  | _ + 1, [] => []
  | f + 1, c :: r =>
    match matchVarcharLen (c :: r) with
    | some rest => rep ++ subVarcharAux rep f rest
    | none => c :: subVarcharAux rep f r

/-- Python `re.sub(r'varchar\(\d+\)', rep, line, flags=re.IGNORECASE)`. -/
def subVarchar (rep s : Str) : Str := subVarcharAux rep s.length s

theorem subVarcharAux_fuel (rep : Str) :
    ∀ (f g : Nat) (s : Str), s.length ≤ f → s.length ≤ g →
      subVarcharAux rep f s = subVarcharAux rep g s := by
  intro f
  induction f with
  | zero =>
    intro g s hf hg
    match s with
    | [] => cases g <;> rfl
    | _ :: _ => simp at hf
  | succ f ih =>
    intro g s hf hg
    match s with
    | [] => cases g <;> rfl
    | c :: r =>
      match g with
      | 0 => simp at hg
      | g + 1 =>
        simp only [subVarcharAux]
        cases hm : matchVarcharLen (c :: r) with
        | none =>
          simp only [List.length_cons] at hf hg
          simp [ih g r (by omega) (by omega)]
        | some rest =>
          have hl := matchVarcharLen_length hm
          simp only [List.length_cons] at hf hg hl
          simp [ih g rest (by omega) (by omega)]

theorem subVarchar_nil (rep : Str) : subVarchar rep [] = [] := rfl

theorem subVarchar_skip (rep : Str) (c : Char) (r : Str)
    (h : matchVarcharLen (c :: r) = none) :
    subVarchar rep (c :: r) = c :: subVarchar rep r := by
  show subVarcharAux rep (r.length + 1) (c :: r) = _
  simp only [subVarcharAux, h]
  rfl

theorem subVarchar_found (rep : Str) (c : Char) (r rest : Str)
    (h : matchVarcharLen (c :: r) = some rest) :
    subVarchar rep (c :: r) = rep ++ subVarchar rep rest := by
  show subVarcharAux rep (r.length + 1) (c :: r) = _
  simp only [subVarcharAux, h]
  have hl := matchVarcharLen_length h
  simp only [List.length_cons] at hl
  rw [subVarcharAux_fuel rep r.length rest.length rest (by omega) le_rfl]
  rfl

theorem matchVarcharLen_none_of_not_v (c : Char) (r : Str) (h : ¬c.toLower = 'v') :
    matchVarcharLen (c :: r) = none := by
  have hcons : "varchar(".toList = 'v' :: "archar(".toList := rfl
  unfold matchVarcharLen
  rw [hcons]
  simp only [stripPrefixCI]
  rw [if_neg (by simpa using h)]

theorem subVarchar_noV (rep : Str) :
    ∀ s : Str, (∀ c ∈ s, ¬c.toLower = 'v') → subVarchar rep s = s := by
  intro s
  induction s with
  | nil => intro _; rfl
  | cons c r ih =>
    intro h
    rw [subVarchar_skip rep c r
      (matchVarcharLen_none_of_not_v c r (h c (List.mem_cons_self c r)))]
    rw [ih (fun x hx => h x (List.mem_cons_of_mem c hx))]

theorem subVarchar_append_noV (rep : Str) :
    ∀ (pre s : Str), (∀ c ∈ pre, ¬c.toLower = 'v') →
      subVarchar rep (pre ++ s) = pre ++ subVarchar rep s := by
  intro pre
  induction pre with
  | nil => intro s _; rfl
  | cons c p ih =>
    intro s h
    rw [List.cons_append,
      subVarchar_skip rep c (p ++ s)
        (matchVarcharLen_none_of_not_v c (p ++ s) (h c (List.mem_cons_self c p))),
      ih s (fun x hx => h x (List.mem_cons_of_mem c hx))]
    rfl

theorem takeWhile_append_stop (p : Char → Bool) :
    ∀ (l1 : Str) (x : Char) (l2 : Str), (∀ c ∈ l1, p c = true) → p x = false →
      (l1 ++ x :: l2).takeWhile p = l1 := by
  intro l1
  induction l1 with
  | nil =>
    intro x l2 _ hx
    simp [List.takeWhile, hx]
  | cons c r ih =>
    intro x l2 h hx
    simp only [List.cons_append, List.takeWhile, h c (List.mem_cons_self c r),
      List.append_eq]
    rw [ih x l2 (fun a ha => h a (List.mem_cons_of_mem c ha)) hx]

theorem stripPrefixCI_varchar (s : Str) :
    stripPrefixCI "varchar(".toList ("varchar(".toList ++ s) = some s := rfl

theorem matchVarcharLen_at (ds post : Str) (hne : ds ≠ [])
    (hds : ∀ c ∈ ds, c.isDigit = true) :
    matchVarcharLen ("varchar(".toList ++ ds ++ ')' :: post) = some post := by
  unfold matchVarcharLen
  rw [List.append_assoc, stripPrefixCI_varchar]
  simp only
  rw [takeWhile_append_stop Char.isDigit ds ')' post hds (by decide)]
  rw [if_neg hne, List.drop_left]
  simp

/-- One attempt of the substitution regex `` (`\w+`)\(\d+\) `` at the head of
`s`, returning the captured backticked identifier and the remainder. -/
def matchKeyHint (s : Str) : Option (Str × Str) :=
  match s with
  | [] => none
  | c :: r =>
    if c = btick then
      let w := r.takeWhile isWordChar
      if w = [] then none
      else
        match r.drop w.length with
        | c2 :: c3 :: r2 =>
          if c2 = btick ∧ c3 = '(' then
            let ds := r2.takeWhile Char.isDigit
            if ds = [] then none
            else
              match r2.drop ds.length with
              | c4 :: rest => if c4 = ')' then some (c :: (w ++ [c2]), rest) else none
              | [] => none
          else none
        | _ => none
    else none

theorem matchKeyHint_length {s : Str} {cap rest : Str}
    (h : matchKeyHint s = some (cap, rest)) : rest.length < s.length := by
  match s with
  | [] => simp [matchKeyHint] at h
  | c :: r =>
    simp only [matchKeyHint] at h
    split at h
    · split at h
      · simp at h
      · split at h
        · rename_i hw c2 c3 r2 hdrop
          split at h
          · split at h
            · simp at h
            · split at h
              · rename_i hds c4 rest' hdrop2
                split at h
                · cases h
                  have h1 : (r.drop (r.takeWhile isWordChar).length).length = r2.length + 2 := by
                    rw [hdrop]; simp
                  have h2 : (r2.drop (r2.takeWhile Char.isDigit).length).length =
                      rest.length + 1 := by
                    rw [hdrop2]; simp
                  rw [List.length_drop] at h1 h2
                  simp only [List.length_cons]
                  omega
                · simp at h
              · simp at h
          · simp at h
        · simp at h
    · simp at h

def subKeyAux : Nat → Str → Str
  | 0, s => s
  | _ + 1, [] => []
  | f + 1, c :: r =>
    match matchKeyHint (c :: r) with
    | some (cap, rest) => cap ++ "(191)".toList ++ subKeyAux f rest
    | none => c :: subKeyAux f r

/-- Python `re.sub(r'(`\w+`)\(\d+\)', r'\1(191)', line)`. -/
def subKey (s : Str) : Str := subKeyAux s.length s

theorem subKeyAux_fuel :
    ∀ (f g : Nat) (s : Str), s.length ≤ f → s.length ≤ g →
      subKeyAux f s = subKeyAux g s := by
  intro f
  induction f with
  | zero =>
    intro g s hf hg
    match s with
    | [] => cases g <;> rfl
    | _ :: _ => simp at hf
  | succ f ih =>
    intro g s hf hg
    match s with
    | [] => cases g <;> rfl
    | c :: r =>
      match g with
      | 0 => simp at hg
      | g + 1 =>
        simp only [subKeyAux]
        cases hm : matchKeyHint (c :: r) with
        | none =>
          simp only [List.length_cons] at hf hg
          simp [ih g r (by omega) (by omega)]
        | some p =>
          obtain ⟨cap, rest⟩ := p
          have hl := matchKeyHint_length hm
          simp only [List.length_cons] at hf hg hl
          simp [ih g rest (by omega) (by omega)]

theorem subKey_skip (c : Char) (r : Str) (h : matchKeyHint (c :: r) = none) :
    subKey (c :: r) = c :: subKey r := by
  show subKeyAux (r.length + 1) (c :: r) = _
  simp only [subKeyAux, h]
  rfl

theorem subKey_found (c : Char) (r cap rest : Str)
    (h : matchKeyHint (c :: r) = some (cap, rest)) :
    subKey (c :: r) = cap ++ "(191)".toList ++ subKey rest := by
  show subKeyAux (r.length + 1) (c :: r) = _
  simp only [subKeyAux, h]
  have hl := matchKeyHint_length h
  simp only [List.length_cons] at hl
  rw [subKeyAux_fuel r.length rest.length rest (by omega) le_rfl]
  rfl

theorem matchKeyHint_none_of_not_btick (c : Char) (r : Str) (h : ¬c = btick) :
    matchKeyHint (c :: r) = none := by
  simp only [matchKeyHint]
  rw [if_neg h]

theorem subKey_noBtick :
    ∀ s : Str, (∀ c ∈ s, ¬c = btick) → subKey s = s := by
  intro s
  induction s with
  | nil => intro _; rfl
  | cons c r ih =>
    intro h
    rw [subKey_skip c r (matchKeyHint_none_of_not_btick c r (h c (List.mem_cons_self c r))),
      ih (fun x hx => h x (List.mem_cons_of_mem c hx))]

theorem subKey_append_noBtick :
    ∀ (pre s : Str), (∀ c ∈ pre, ¬c = btick) →
      subKey (pre ++ s) = pre ++ subKey s := by
  intro pre
  induction pre with
  | nil => intro s _; rfl
  | cons c p ih =>
    intro s h
    rw [List.cons_append,
      subKey_skip c (p ++ s) (matchKeyHint_none_of_not_btick c (p ++ s)
        (h c (List.mem_cons_self c p))),
      ih s (fun x hx => h x (List.mem_cons_of_mem c hx))]
    rfl

/-- refine.py lines 31-40. -/
def adjust_varchar_and_key_length (line : Str) : Str × Option Nat :=
  match searchVarcharDecl line with
  | some n =>
    let new_length := if n ≤ 100 then 100 else 191
    let line1 :=
      subVarchar ("VARCHAR(".toList ++ (Nat.repr new_length).toList ++ ")".toList) line
    (subKey line1, some new_length)
  | none => (subKey line, none)

theorem isWordChar_ne_btick {c : Char} (hc : isWordChar c = true) : ¬c = btick := by
  intro he
  rw [he] at hc
  exact absurd hc (by decide)

theorem isDigit_ne_btick {c : Char} (hc : c.isDigit = true) : ¬c = btick := by
  intro he
  rw [he] at hc
  exact absurd hc (by decide)

theorem matchVarcharDecl_none_not_btick (c : Char) (r : Str) (h : ¬c = btick) :
    matchVarcharDecl (c :: r) = none := by
  simp only [matchVarcharDecl]
  rw [if_neg h]

theorem searchVarcharDecl_cons_none {c : Char} {r : Str}
    (h : matchVarcharDecl (c :: r) = none) :
    searchVarcharDecl (c :: r) = searchVarcharDecl r := by
  simp only [searchVarcharDecl, h]

theorem searchVarcharDecl_append_noBtick :
    ∀ (pre s : Str), (∀ c ∈ pre, ¬c = btick) →
      searchVarcharDecl (pre ++ s) = searchVarcharDecl s := by
  intro pre
  induction pre with
  | nil => intro s _; rfl
  | cons c p ih =>
    intro s h
    rw [List.cons_append,
      searchVarcharDecl_cons_none
        (matchVarcharDecl_none_not_btick c (p ++ s) (h c (List.mem_cons_self c p))),
      ih s (fun x hx => h x (List.mem_cons_of_mem c hx))]

theorem searchVarcharDecl_noBtick :
    ∀ s : Str, (∀ c ∈ s, ¬c = btick) → searchVarcharDecl s = none := by
  intro s h
  have := searchVarcharDecl_append_noBtick s [] h
  simpa using this

theorem matchVarcharDecl_btick_w_lparen (w2 : Str) (hw2 : w2 ≠ [])
    (hw2c : ∀ c ∈ w2, isWordChar c = true) (Z : Str) :
    matchVarcharDecl (btick :: (w2 ++ btick :: '(' :: Z)) = none := by
  simp only [matchVarcharDecl, eq_self_iff_true, if_true]
  rw [takeWhile_append_stop isWordChar w2 btick _ hw2c (by decide)]
  rw [if_neg hw2, List.drop_left]
  have h : isSpaceChar '(' = false := by decide
  simp [List.takeWhile, h]

theorem matchKeyHint_key_at (w2 ds2 R : Str) (hw2 : w2 ≠ [])
    (hw2c : ∀ c ∈ w2, isWordChar c = true)
    (hds2 : ds2 ≠ []) (hds2d : ∀ c ∈ ds2, c.isDigit = true) :
    matchKeyHint (btick :: (w2 ++ btick :: '(' :: (ds2 ++ ')' :: R))) =
      some (btick :: (w2 ++ [btick]), R) := by
  simp only [matchKeyHint, eq_self_iff_true, if_true]
  rw [takeWhile_append_stop isWordChar w2 btick _ hw2c (by decide)]
  rw [if_neg hw2, List.drop_left]
  simp only [eq_self_iff_true, and_self, if_true]
  rw [takeWhile_append_stop Char.isDigit ds2 ')' R hds2d (by decide)]
  rw [if_neg hds2, List.drop_left]
  simp

theorem isSpaceChar_cases {c : Char} (h : isSpaceChar c = true) :
    c = ' ' ∨ c = '\t' ∨ c = '\n' ∨ c = '\r' ∨ c = Char.ofNat 11 ∨ c = Char.ofNat 12 := by
  simp only [isSpaceChar, Bool.or_eq_true, decide_eq_true_eq] at h
  rcases h with ((((h | h) | h) | h) | h) | h
  · exact Or.inl h
  · exact Or.inr (Or.inl h)
  · exact Or.inr (Or.inr (Or.inl h))
  · exact Or.inr (Or.inr (Or.inr (Or.inl h)))
  · refine Or.inr (Or.inr (Or.inr (Or.inr (Or.inl ?_))))
    rw [← Char.ofNat_toNat c, h]
  · refine Or.inr (Or.inr (Or.inr (Or.inr (Or.inr ?_))))
    rw [← Char.ofNat_toNat c, h]

theorem isSpaceChar_ne_btick {c : Char} (h : isSpaceChar c = true) : ¬c = btick := by
  rcases isSpaceChar_cases h with rfl | rfl | rfl | rfl | rfl | rfl <;> decide

theorem isSpaceChar_toLower_ne_v {c : Char} (h : isSpaceChar c = true) :
    ¬c.toLower = 'v' := by
  rcases isSpaceChar_cases h with rfl | rfl | rfl | rfl | rfl | rfl <;> decide

theorem isSpaceChar_not_word {c : Char} (h : isSpaceChar c = true) :
    isWordChar c = false := by
  rcases isSpaceChar_cases h with rfl | rfl | rfl | rfl | rfl | rfl <;> decide

theorem isSpaceChar_ne_lparen {c : Char} (h : isSpaceChar c = true) : ¬c = '(' := by
  rcases isSpaceChar_cases h with rfl | rfl | rfl | rfl | rfl | rfl <;> decide

theorem char_toNat_ofNat_valid {n : Nat} (h : n.isValidChar) : (Char.ofNat n).toNat = n := by
  unfold Char.ofNat
  rw [dif_pos h]
  rfl

theorem toLower_eq_imp {c x : Char} (h : c.toLower = x) :
    c = x ∨ (65 ≤ c.toNat ∧ c.toNat ≤ 90 ∧ c.toNat + 32 = x.toNat) := by
  unfold Char.toLower at h
  dsimp only at h
  split at h
  · rename_i hr
    right
    have hv : (Char.ofNat (c.toNat + 32)).toNat = c.toNat + 32 :=
      char_toNat_ofNat_valid (Or.inl (by omega))
    have := congrArg Char.toNat h
    rw [hv] at this
    exact ⟨by omega, by omega, this⟩
  · exact Or.inl h

theorem isWordChar_toLower_ne_lparen {c : Char} (hc : isWordChar c = true) :
    ¬c.toLower = '(' := by
  intro he
  rcases toLower_eq_imp he with rfl | ⟨h1, h2, h3⟩
  · exact absurd hc (by decide)
  · have : ('(' : Char).toNat = 40 := by decide
    omega

/-- A case-insensitive literal matches any spelling of itself. -/
theorem stripPrefixCI_of_lower_eq :
    ∀ (p s X : Str), p.map Char.toLower = s.map Char.toLower →
      stripPrefixCI p (s ++ X) = some X := by
  intro p
  induction p with
  | nil =>
    intro s X h
    have hs : s = [] := by
      have hlen := congrArg List.length h
      simp only [List.map_nil, List.length_nil, List.length_map] at hlen
      exact List.length_eq_zero.mp hlen.symm
    subst hs
    rfl
  | cons pc p' ih =>
    intro s X h
    match s with
    | [] => simp at h
    | c :: s' =>
      simp only [List.map_cons, List.cons.injEq] at h
      simp only [List.cons_append, stripPrefixCI]
      rw [if_pos h.1.symm]
      exact ih s' X h.2

/-- The pattern `rp` cannot match starting anywhere inside a word-character
run that is immediately followed by a backtick, provided `rp` contains a
character no word character can spell case-insensitively and no character of
`rp` matches the backtick. -/
theorem stripPrefixCI_word_btick :
    ∀ (w' rp X : Str) (x : Char),
      (∀ c ∈ w', isWordChar c = true) →
      x ∈ rp →
      (∀ c : Char, isWordChar c = true → ¬c.toLower = x.toLower) →
      (∀ pc ∈ rp, ¬btick.toLower = pc.toLower) →
      stripPrefixCI rp (w' ++ btick :: X) = none := by
  intro w'
  induction w' with
  | nil =>
    intro rp X x hw hx hxw hbp
    match rp, hx with
    | pc :: rp', _ =>
      simp only [List.nil_append, stripPrefixCI]
      rw [if_neg (hbp pc (List.mem_cons_self pc rp'))]
  | cons c w'' ih =>
    intro rp X x hw hx hxw hbp
    match rp, hx with
    | pc :: rp', hx =>
      simp only [List.cons_append, stripPrefixCI]
      by_cases hm : c.toLower = pc.toLower
      · rw [if_pos hm]
        rcases List.mem_cons.mp hx with rfl | hx'
        · exact absurd hm (hxw c (hw c (List.mem_cons_self c w'')))
        · exact ih rp' X x (fun a ha => hw a (List.mem_cons_of_mem c ha)) hx' hxw
            (fun pc2 h2 => hbp pc2 (List.mem_cons_of_mem pc h2))
      · rw [if_neg hm]

/-- The `varchar(` substitution scan passes unchanged over a word-character
run followed by a backtick (so identifiers containing `v`, like `avatar`,
are safe). -/
theorem subVarchar_append_word (rep : Str) :
    ∀ (w X : Str), (∀ c ∈ w, isWordChar c = true) →
      subVarchar rep (w ++ btick :: X) = w ++ subVarchar rep (btick :: X) := by
  intro w
  induction w with
  | nil => intro X _; rfl
  | cons c w' ih =>
    intro X hw
    have hnone : matchVarcharLen ((c :: w') ++ btick :: X) = none := by
      unfold matchVarcharLen
      rw [stripPrefixCI_word_btick (c :: w') "varchar(".toList X '(' hw (by decide)
        (fun a ha => isWordChar_toLower_ne_lparen ha) (by decide)]
    rw [List.cons_append] at hnone ⊢
    rw [subVarchar_skip rep c (w' ++ btick :: X) hnone,
      ih X (fun a ha => hw a (List.mem_cons_of_mem c ha))]
    rfl

theorem subVarchar_no_occ (rep : Str) :
    ∀ s : Str, (∀ s' : Str, s' <:+ s → matchVarcharLen s' = none) →
      subVarchar rep s = s := by
  intro s
  induction s with
  | nil => intro _; rfl
  | cons c r ih =>
    intro h
    rw [subVarchar_skip rep c r (h (c :: r) (List.suffix_refl _)),
      ih (fun s' hs' => h s' (hs'.trans (List.suffix_cons c r)))]

theorem subKey_no_occ :
    ∀ s : Str, (∀ s' : Str, s' <:+ s → matchKeyHint s' = none) → subKey s = s := by
  intro s
  induction s with
  | nil => intro _; rfl
  | cons c r ih =>
    intro h
    rw [subKey_skip c r (h (c :: r) (List.suffix_refl _)),
      ih (fun s' hs' => h s' (hs'.trans (List.suffix_cons c r)))]

theorem searchVarcharDecl_no_occ :
    ∀ s : Str, (∀ s' : Str, s' <:+ s → matchVarcharDecl s' = none) →
      searchVarcharDecl s = none := by
  intro s
  induction s with
  | nil => intro _; rfl
  | cons c r ih =>
    intro h
    rw [searchVarcharDecl_cons_none (h (c :: r) (List.suffix_refl _)),
      ih (fun s' hs' => h s' (hs'.trans (List.suffix_cons c r)))]

/-- The substitution regex matches any case variant of the keyword. -/
theorem matchVarcharLen_at_gen (vk ds post : Str)
    (hvk : vk.map Char.toLower = "varchar".toList)
    (hds : ds ≠ []) (hdsd : ∀ c ∈ ds, c.isDigit = true) :
    matchVarcharLen (vk ++ '(' :: (ds ++ ')' :: post)) = some post := by
  unfold matchVarcharLen
  have hshape : vk ++ '(' :: (ds ++ ')' :: post) = (vk ++ ['(']) ++ (ds ++ ')' :: post) := by
    simp
  rw [hshape, stripPrefixCI_of_lower_eq "varchar(".toList (vk ++ ['(']) _ (by simp [hvk])]
  simp only
  rw [takeWhile_append_stop Char.isDigit ds ')' post hdsd (by decide)]
  rw [if_neg hds, List.drop_left]
  simp

/-- The search regex matches at a backticked identifier followed by
whitespace and any case variant of `varchar(` with a parenthesised length. -/
theorem matchVarcharDecl_at_gen (w sp vk ds post : Str)
    (hw : w ≠ []) (hwc : ∀ c ∈ w, isWordChar c = true)
    (hsp : sp ≠ []) (hspc : ∀ c ∈ sp, isSpaceChar c = true)
    (hvk : vk.map Char.toLower = "varchar".toList)
    (hds : ds ≠ []) (hdsd : ∀ c ∈ ds, c.isDigit = true) :
    matchVarcharDecl (btick :: (w ++ btick :: (sp ++ (vk ++ '(' :: (ds ++ ')' :: post))))) =
      some (natOfDigits ds) := by
  obtain ⟨v0, vk2, rfl⟩ : ∃ v0 vk2, vk = v0 :: vk2 := by
    cases vk with
    | nil => simp at hvk
    | cons a b => exact ⟨a, b, rfl⟩
  have hvkFull : (v0 :: vk2).map Char.toLower = "varchar".toList := hvk
  simp only [List.map_cons] at hvk
  have hv0 : v0.toLower = 'v' := by
    have := congrArg (fun l => List.headD l ' ') hvk
    simpa using this
  have hv0sp : isSpaceChar v0 = false := by
    by_contra hc
    simp only [Bool.not_eq_false] at hc
    exact isSpaceChar_toLower_ne_v hc hv0
  have hvk2 : List.map Char.toLower vk2 = "archar".toList := by
    have h2 := hvk
    rw [show "varchar".toList = 'v' :: "archar".toList from rfl] at h2
    simp only [List.cons.injEq] at h2
    exact h2.2
  simp only [matchVarcharDecl, eq_self_iff_true, if_true]
  rw [takeWhile_append_stop isWordChar w btick _ hwc (by decide)]
  rw [if_neg hw, List.drop_left]
  simp only [eq_self_iff_true, if_true]
  have hshape : sp ++ ((v0 :: vk2) ++ '(' :: (ds ++ ')' :: post)) =
      sp ++ v0 :: (vk2 ++ '(' :: (ds ++ ')' :: post)) := by
    simp
  rw [hshape, takeWhile_append_stop isSpaceChar sp v0 _ hspc hv0sp]
  rw [if_neg hsp, List.drop_left]
  have hshape2 : v0 :: (vk2 ++ '(' :: (ds ++ ')' :: post)) =
      ((v0 :: vk2) ++ ['(']) ++ (ds ++ ')' :: post) := by
    simp
  rw [hshape2, stripPrefixCI_of_lower_eq "varchar(".toList ((v0 :: vk2) ++ ['(']) _
    (by simp [hv0, hvk2])]
  simp only
  rw [takeWhile_append_stop Char.isDigit ds ')' post hdsd (by decide)]
  rw [if_neg hds, List.drop_left]
  simp

theorem matchVarcharDecl_btick_nonword (x : Char) (X : Str)
    (hx : isWordChar x = false) :
    matchVarcharDecl (btick :: x :: X) = none := by
  simp [matchVarcharDecl, List.takeWhile, hx]

theorem matchVarcharDecl_btick_w_sp (w sp X : Str)
    (hw : w ≠ []) (hwc : ∀ c ∈ w, isWordChar c = true)
    (hspc : ∀ c ∈ sp, isSpaceChar c = true) :
    matchVarcharDecl (btick :: (w ++ btick :: (sp ++ '(' :: X))) = none := by
  simp only [matchVarcharDecl, eq_self_iff_true, if_true]
  rw [takeWhile_append_stop isWordChar w btick _ hwc (by decide)]
  rw [if_neg hw, List.drop_left]
  simp only [eq_self_iff_true, if_true]
  rw [takeWhile_append_stop isSpaceChar sp '(' X hspc (by decide)]
  by_cases hsp : sp = []
  · rw [if_pos hsp]
  · rw [if_neg hsp, List.drop_left]
    rfl

theorem matchKeyHint_btick_w_nonparen (w : Str) (x : Char) (X : Str) (hw : w ≠ [])
    (hwc : ∀ c ∈ w, isWordChar c = true) (hx : ¬x = '(') :
    matchKeyHint (btick :: (w ++ btick :: x :: X)) = none := by
  simp only [matchKeyHint, eq_self_iff_true, if_true]
  rw [takeWhile_append_stop isWordChar w btick _ hwc (by decide)]
  rw [if_neg hw, List.drop_left]
  simp [hx]

theorem matchKeyHint_btick_nonword (x : Char) (X : Str) (hx : isWordChar x = false) :
    matchKeyHint (btick :: x :: X) = none := by
  simp [matchKeyHint, List.takeWhile, hx]

theorem subVarchar_at_gen (rep vk ds post : Str)
    (hvk : vk.map Char.toLower = "varchar".toList)
    (hds : ds ≠ []) (hdsd : ∀ c ∈ ds, c.isDigit = true)
    (hpost1 : ∀ s' : Str, s' <:+ post → matchVarcharLen s' = none) :
    subVarchar rep (vk ++ '(' :: (ds ++ ')' :: post)) = rep ++ post := by
  obtain ⟨v0, vk2, rfl⟩ : ∃ v0 vk2, vk = v0 :: vk2 := by
    cases vk with
    | nil => simp at hvk
    | cons a b => exact ⟨a, b, rfl⟩
  have hm := matchVarcharLen_at_gen (v0 :: vk2) ds post hvk hds hdsd
  rw [show (v0 :: vk2) ++ '(' :: (ds ++ ')' :: post) =
      v0 :: (vk2 ++ '(' :: (ds ++ ')' :: post)) by simp] at hm ⊢
  rw [subVarchar_found rep v0 _ post hm, subVarchar_no_occ rep post hpost1]

theorem subKey_unchanged_column (pre w sp d post : Str)
    (hpre : ∀ c ∈ pre, ¬c = btick)
    (hw : w ≠ []) (hwc : ∀ c ∈ w, isWordChar c = true)
    (hsp : sp ≠ []) (hspc : ∀ c ∈ sp, isSpaceChar c = true)
    (hd : ∀ c ∈ d, ¬c = btick)
    (hpost : ∀ s' : Str, s' <:+ post → matchKeyHint s' = none) :
    subKey (pre ++ btick :: (w ++ btick :: (sp ++ ("VARCHAR(".toList ++ (d ++ ')' :: post))))) =
      pre ++ btick :: (w ++ btick :: (sp ++ ("VARCHAR(".toList ++ (d ++ ')' :: post)))) := by
  obtain ⟨s0, sp', rfl⟩ : ∃ s0 sp', sp = s0 :: sp' := by
    cases sp with
    | nil => exact absurd rfl hsp
    | cons a b => exact ⟨a, b, rfl⟩
  have hs0 : isSpaceChar s0 = true := hspc s0 (List.mem_cons_self s0 sp')
  simp only [List.cons_append]
  rw [subKey_append_noBtick pre _ hpre]
  rw [subKey_skip _ _ (matchKeyHint_btick_w_nonparen w s0 _ hw hwc (isSpaceChar_ne_lparen hs0))]
  rw [subKey_append_noBtick w _ (fun c hc => isWordChar_ne_btick (hwc c hc))]
  rw [subKey_skip _ _ (matchKeyHint_btick_nonword s0 _ (isSpaceChar_not_word hs0))]
  rw [show s0 :: (sp' ++ ("VARCHAR(".toList ++ (d ++ ')' :: post))) =
      (s0 :: sp') ++ ("VARCHAR(".toList ++ (d ++ ')' :: post)) by simp]
  rw [subKey_append_noBtick (s0 :: sp') _
    (fun c hc => isSpaceChar_ne_btick (hspc c hc))]
  rw [subKey_append_noBtick "VARCHAR(".toList _ (by decide)]
  rw [subKey_append_noBtick d _ hd]
  rw [subKey_skip ')' post (matchKeyHint_none_of_not_btick ')' post (by decide))]
  rw [subKey_no_occ post hpost]

theorem c6aux_column (pre w sp vk ds post : Str)
    (hpre : ∀ c ∈ pre, isSpaceChar c = true)
    (hw : w ≠ []) (hwc : ∀ c ∈ w, isWordChar c = true)
    (hsp : sp ≠ []) (hspc : ∀ c ∈ sp, isSpaceChar c = true)
    (hvk : vk.map Char.toLower = "varchar".toList)
    (hds : ds ≠ []) (hdsd : ∀ c ∈ ds, c.isDigit = true)
    (hpost1 : ∀ s' : Str, s' <:+ post → matchVarcharLen s' = none)
    (hpost2 : ∀ s' : Str, s' <:+ post → matchKeyHint s' = none) :
    adjust_varchar_and_key_length
        (pre ++ btick :: (w ++ btick :: (sp ++ (vk ++ '(' :: (ds ++ ')' :: post))))) =
      (pre ++ btick :: (w ++ btick :: (sp ++ ("VARCHAR(".toList ++
          ((if natOfDigits ds ≤ 100 then "100".toList else "191".toList) ++ ')' :: post)))),
       some (if natOfDigits ds ≤ 100 then 100 else 191)) := by
  have hm := matchVarcharDecl_at_gen w sp vk ds post hw hwc hsp hspc hvk hds hdsd
  have hsearch : searchVarcharDecl
      (pre ++ btick :: (w ++ btick :: (sp ++ (vk ++ '(' :: (ds ++ ')' :: post))))) =
      some (natOfDigits ds) := by
    rw [searchVarcharDecl_append_noBtick pre _ (fun c hc => isSpaceChar_ne_btick (hpre c hc))]
    simp only [searchVarcharDecl, hm]
  unfold adjust_varchar_and_key_length
  rw [hsearch]
  simp only
  have hsub : ∀ rep : Str,
      subVarchar rep
          (pre ++ btick :: (w ++ btick :: (sp ++ (vk ++ '(' :: (ds ++ ')' :: post))))) =
        pre ++ btick :: (w ++ btick :: (sp ++ (rep ++ post))) := by
    intro rep
    rw [subVarchar_append_noV rep pre _ (fun c hc => isSpaceChar_toLower_ne_v (hpre c hc))]
    rw [subVarchar_skip rep btick _ (matchVarcharLen_none_of_not_v btick _ (by decide))]
    rw [subVarchar_append_word rep w _ hwc]
    rw [subVarchar_skip rep btick _ (matchVarcharLen_none_of_not_v btick _ (by decide))]
    rw [subVarchar_append_noV rep sp _ (fun c hc => isSpaceChar_toLower_ne_v (hspc c hc))]
    rw [subVarchar_at_gen rep vk ds post hvk hds hdsd hpost1]
  rw [hsub]
  by_cases h100 : natOfDigits ds ≤ 100
  · rw [if_pos h100]
    have hrep : ("VARCHAR(".toList ++ (Nat.repr 100).toList ++ ")".toList) ++ post =
        "VARCHAR(".toList ++ ("100".toList ++ ')' :: post) := by
      have h : (Nat.repr 100).toList = "100".toList := rfl
      rw [h]
      simp
    rw [hrep]
    rw [subKey_unchanged_column pre w sp "100".toList post
      (fun c hc => isSpaceChar_ne_btick (hpre c hc)) hw hwc hsp hspc (by decide) hpost2]
    simp [h100]
  · rw [if_neg h100]
    have hrep : ("VARCHAR(".toList ++ (Nat.repr 191).toList ++ ")".toList) ++ post =
        "VARCHAR(".toList ++ ("191".toList ++ ')' :: post) := by
      have h : (Nat.repr 191).toList = "191".toList := rfl
      rw [h]
      simp
    rw [hrep]
    rw [subKey_unchanged_column pre w sp "191".toList post
      (fun c hc => isSpaceChar_ne_btick (hpre c hc)) hw hwc hsp hspc (by decide) hpost2]
    simp [h100]

theorem c6aux_key (kw iw sp2 w1 d1 w2 d2 post2 : Str)
    (hkw : ∀ c ∈ kw, ¬c = btick)
    (hiw : iw ≠ []) (hiwc : ∀ c ∈ iw, isWordChar c = true)
    (hsp2 : sp2 ≠ []) (hsp2c : ∀ c ∈ sp2, isSpaceChar c = true)
    (hw1 : w1 ≠ []) (hw1c : ∀ c ∈ w1, isWordChar c = true)
    (hd1 : d1 ≠ []) (hd1d : ∀ c ∈ d1, c.isDigit = true)
    (hw2 : w2 ≠ []) (hw2c : ∀ c ∈ w2, isWordChar c = true)
    (hd2 : d2 ≠ []) (hd2d : ∀ c ∈ d2, c.isDigit = true)
    (hpostA : ∀ s' : Str, s' <:+ post2 → matchVarcharDecl s' = none)
    (hpostB : ∀ s' : Str, s' <:+ post2 → matchKeyHint s' = none) :
    adjust_varchar_and_key_length
        (kw ++ btick :: (iw ++ btick :: (sp2 ++ '(' ::
          btick :: (w1 ++ btick :: '(' :: (d1 ++ ')' :: ',' ::
            btick :: (w2 ++ btick :: '(' :: (d2 ++ ')' :: post2))))))) =
      (kw ++ btick :: (iw ++ btick :: (sp2 ++ '(' ::
          btick :: (w1 ++ btick :: '(' :: '1' :: '9' :: '1' :: ')' :: ',' ::
            btick :: (w2 ++ btick :: '(' :: '1' :: '9' :: '1' :: ')' :: post2)))),
       none) := by
  obtain ⟨s0, sp2x, rfl⟩ : ∃ s0 sp2x, sp2 = s0 :: sp2x := by
    cases sp2 with
    | nil => exact absurd rfl hsp2
    | cons a b => exact ⟨a, b, rfl⟩
  have hs0 : isSpaceChar s0 = true := hsp2c s0 (List.mem_cons_self s0 sp2x)
  have hsp2xb : ∀ c ∈ sp2x, ¬c = btick :=
    fun c hc => isSpaceChar_ne_btick (hsp2c c (List.mem_cons_of_mem s0 hc))
  have hiwb : ∀ c ∈ iw, ¬c = btick := fun c hc => isWordChar_ne_btick (hiwc c hc)
  have hw1b : ∀ c ∈ w1, ¬c = btick := fun c hc => isWordChar_ne_btick (hw1c c hc)
  have hw2b : ∀ c ∈ w2, ¬c = btick := fun c hc => isWordChar_ne_btick (hw2c c hc)
  have hd1b : ∀ c ∈ d1, ¬c = btick := fun c hc => isDigit_ne_btick (hd1d c hc)
  have hd2b : ∀ c ∈ d2, ¬c = btick := fun c hc => isDigit_ne_btick (hd2d c hc)
  simp only [List.cons_append]
  have hmsp := matchVarcharDecl_btick_w_sp iw (s0 :: sp2x)
    (btick :: (w1 ++ btick :: '(' :: (d1 ++ ')' :: ',' ::
      btick :: (w2 ++ btick :: '(' :: (d2 ++ ')' :: post2))))) hiw hiwc hsp2c
  simp only [List.cons_append] at hmsp
  have hsearch : searchVarcharDecl
      (kw ++ btick :: (iw ++ btick :: s0 :: (sp2x ++ '(' ::
        btick :: (w1 ++ btick :: '(' :: (d1 ++ ')' :: ',' ::
          btick :: (w2 ++ btick :: '(' :: (d2 ++ ')' :: post2))))))) = none := by
    rw [searchVarcharDecl_append_noBtick kw _ hkw]
    rw [searchVarcharDecl_cons_none hmsp]
    rw [searchVarcharDecl_append_noBtick iw _ hiwb]
    rw [searchVarcharDecl_cons_none
      (matchVarcharDecl_btick_nonword s0 _ (isSpaceChar_not_word hs0))]
    rw [searchVarcharDecl_cons_none
      (matchVarcharDecl_none_not_btick s0 _ (isSpaceChar_ne_btick hs0))]
    rw [searchVarcharDecl_append_noBtick sp2x _ hsp2xb]
    rw [searchVarcharDecl_cons_none (matchVarcharDecl_none_not_btick '(' _ (by decide))]
    rw [searchVarcharDecl_cons_none (matchVarcharDecl_btick_w_lparen w1 hw1 hw1c _)]
    rw [searchVarcharDecl_append_noBtick w1 _ hw1b]
    rw [searchVarcharDecl_cons_none (matchVarcharDecl_btick_nonword '(' _ (by decide))]
    rw [searchVarcharDecl_cons_none (matchVarcharDecl_none_not_btick '(' _ (by decide))]
    rw [searchVarcharDecl_append_noBtick d1 _ hd1b]
    rw [searchVarcharDecl_cons_none (matchVarcharDecl_none_not_btick ')' _ (by decide))]
    rw [searchVarcharDecl_cons_none (matchVarcharDecl_none_not_btick ',' _ (by decide))]
    rw [searchVarcharDecl_cons_none (matchVarcharDecl_btick_w_lparen w2 hw2 hw2c _)]
    rw [searchVarcharDecl_append_noBtick w2 _ hw2b]
    rw [searchVarcharDecl_cons_none (matchVarcharDecl_btick_nonword '(' _ (by decide))]
    rw [searchVarcharDecl_cons_none (matchVarcharDecl_none_not_btick '(' _ (by decide))]
    rw [searchVarcharDecl_append_noBtick d2 _ hd2b]
    rw [searchVarcharDecl_cons_none (matchVarcharDecl_none_not_btick ')' _ (by decide))]
    exact searchVarcharDecl_no_occ post2 hpostA
  unfold adjust_varchar_and_key_length
  rw [hsearch]
  simp only
  rw [subKey_append_noBtick kw _ hkw]
  rw [subKey_skip _ _
    (matchKeyHint_btick_w_nonparen iw s0 _ hiw hiwc (isSpaceChar_ne_lparen hs0))]
  rw [subKey_append_noBtick iw _ hiwb]
  rw [subKey_skip _ _ (matchKeyHint_btick_nonword s0 _ (isSpaceChar_not_word hs0))]
  rw [subKey_skip _ _ (matchKeyHint_none_of_not_btick s0 _ (isSpaceChar_ne_btick hs0))]
  rw [subKey_append_noBtick sp2x _ hsp2xb]
  rw [subKey_skip _ _ (matchKeyHint_none_of_not_btick '(' _ (by decide))]
  rw [subKey_found _ _ _ _ (matchKeyHint_key_at w1 d1 _ hw1 hw1c hd1 hd1d)]
  rw [subKey_skip _ _ (matchKeyHint_none_of_not_btick ',' _ (by decide))]
  rw [subKey_found _ _ _ _ (matchKeyHint_key_at w2 d2 post2 hw2 hw2c hd2 hd2d)]
  rw [subKey_no_occ post2 hpostB]
  have h191 : ("(191)".toList : Str) = '(' :: '1' :: '9' :: '1' :: ')' :: [] := rfl
  rw [h191]
  simp

/-- Claim C6: for every line of the general column-declaration shape
(any whitespace indentation, any backticked word identifier, any spacing,
any capitalization of the varchar keyword, any digit string n, any remainder
containing no further varchar-length or backtick-length-hint occurrence),
adjust_varchar_and_key_length rewrites the declared length n to 100 when
n ≤ 100 and to 191 when n > 100 and records that value as the column's
varchar target length; and for every line of the general key/index shape
with two backticked length hints, both hints are rewritten to (191)
unconditionally and no varchar length is recorded. -/
theorem c6_varchar_normalization :
    (∀ pre w sp vk ds post : Str,
      (∀ c ∈ pre, isSpaceChar c = true) →
      w ≠ [] → (∀ c ∈ w, isWordChar c = true) →
      sp ≠ [] → (∀ c ∈ sp, isSpaceChar c = true) →
      vk.map Char.toLower = "varchar".toList →
      ds ≠ [] → (∀ c ∈ ds, c.isDigit = true) →
      (∀ s' : Str, s' <:+ post → matchVarcharLen s' = none) →
      (∀ s' : Str, s' <:+ post → matchKeyHint s' = none) →
      adjust_varchar_and_key_length
          (pre ++ btick :: (w ++ btick :: (sp ++ (vk ++ '(' :: (ds ++ ')' :: post))))) =
        (pre ++ btick :: (w ++ btick :: (sp ++ ("VARCHAR(".toList ++
            ((if natOfDigits ds ≤ 100 then "100".toList else "191".toList) ++
              ')' :: post)))),
         some (if natOfDigits ds ≤ 100 then 100 else 191))) ∧
    (∀ kw iw sp2 w1 d1 w2 d2 post2 : Str,
      (∀ c ∈ kw, ¬c = btick) →
      iw ≠ [] → (∀ c ∈ iw, isWordChar c = true) →
      sp2 ≠ [] → (∀ c ∈ sp2, isSpaceChar c = true) →
      w1 ≠ [] → (∀ c ∈ w1, isWordChar c = true) →
      d1 ≠ [] → (∀ c ∈ d1, c.isDigit = true) →
      w2 ≠ [] → (∀ c ∈ w2, isWordChar c = true) →
      d2 ≠ [] → (∀ c ∈ d2, c.isDigit = true) →
      (∀ s' : Str, s' <:+ post2 → matchVarcharDecl s' = none) →
      (∀ s' : Str, s' <:+ post2 → matchKeyHint s' = none) →
      adjust_varchar_and_key_length
          (kw ++ btick :: (iw ++ btick :: (sp2 ++ '(' ::
            btick :: (w1 ++ btick :: '(' :: (d1 ++ ')' :: ',' ::
              btick :: (w2 ++ btick :: '(' :: (d2 ++ ')' :: post2))))))) =
        (kw ++ btick :: (iw ++ btick :: (sp2 ++ '(' ::
            btick :: (w1 ++ btick :: '(' :: '1' :: '9' :: '1' :: ')' :: ',' ::
              btick :: (w2 ++ btick :: '(' :: '1' :: '9' :: '1' :: ')' :: post2)))),
         none)) :=
  ⟨c6aux_column, c6aux_key⟩

theorem c6_varchar_normalization_witness :
    adjust_varchar_and_key_length "  `avatar` VARCHAR(250) DEFAULT NULL,".toList =
      ("  `avatar` VARCHAR(191) DEFAULT NULL,".toList, some 191) ∧
    adjust_varchar_and_key_length
        "  KEY `idx_name` (`username`(250),`email`(250)),".toList =
      ("  KEY `idx_name` (`username`(191),`email`(191)),".toList, none) := by
  constructor
  · have h1 := c6_varchar_normalization.1 "  ".toList "avatar".toList " ".toList
      "VARCHAR".toList "250".toList " DEFAULT NULL,".toList
      (by decide) (by decide) (by decide) (by decide) (by decide)
      (by decide) (by decide) (by decide)
      (by
        intro s' hs'
        exact (by decide : ∀ x ∈ (" DEFAULT NULL,".toList).tails,
          matchVarcharLen x = none) s' ((List.mem_tails _ _).mpr hs'))
      (by
        intro s' hs'
        exact (by decide : ∀ x ∈ (" DEFAULT NULL,".toList).tails,
          matchKeyHint x = none) s' ((List.mem_tails _ _).mpr hs'))
    have e1 : "  `avatar` VARCHAR(250) DEFAULT NULL,".toList =
        "  ".toList ++ btick :: ("avatar".toList ++ btick :: (" ".toList ++
          ("VARCHAR".toList ++ '(' :: ("250".toList ++ ')' ::
            " DEFAULT NULL,".toList)))) := by decide
    rw [e1, h1]
    decide
  · have h2 := c6_varchar_normalization.2 "  KEY ".toList "idx_name".toList " ".toList
      "username".toList "250".toList "email".toList "250".toList "),".toList
      (by decide) (by decide) (by decide) (by decide) (by decide)
      (by decide) (by decide) (by decide) (by decide) (by decide)
      (by decide) (by decide) (by decide)
      (by
        intro s' hs'
        exact (by decide : ∀ x ∈ ("),".toList).tails,
          matchVarcharDecl x = none) s' ((List.mem_tails _ _).mpr hs'))
      (by
        intro s' hs'
        exact (by decide : ∀ x ∈ ("),".toList).tails,
          matchKeyHint x = none) s' ((List.mem_tails _ _).mpr hs'))
    have e2 : "  KEY `idx_name` (`username`(250),`email`(250)),".toList =
        "  KEY ".toList ++ btick :: ("idx_name".toList ++ btick :: (" ".toList ++ '(' ::
          btick :: ("username".toList ++ btick :: '(' :: ("250".toList ++ ')' :: ',' ::
            btick :: ("email".toList ++ btick :: '(' ::
              ("250".toList ++ ')' :: "),".toList)))))) := by decide
    rw [e2, h2]
    decide

def startsAnyOf (s : Str) (ps : List Str) : Bool := ps.any (fun p => p.isPrefixOf s)

/-- The optional-backtick identifier part of the column regex
`` `?(\w+)`? ``: the captured identifier and the remainder. -/
def matchColDefName (s : Str) : Option (Str × Str) :=
  let s1 :=
    match s with
    | c :: r => if c = btick then r else c :: r
    | [] => []
  let name := s1.takeWhile isWordChar
  if name = [] then none else some (name, s1.drop name.length)

/-- The rest of the column regex `` `?\s+([a-z]+(\([^)]+\))?) `` after the
identifier: the captured type token. -/
def matchColDefType (s2 : Str) : Option Str :=
  let s3 :=
    match s2 with
    | c :: r => if c = btick then r else c :: r
    | [] => []
  let sp := s3.takeWhile isSpaceChar
  if sp = [] then none
  else
    let s4 := s3.drop sp.length
    let letters := s4.takeWhile (fun c => 'a' ≤ c && c ≤ 'z')
    if letters = [] then none
    else
      let s5 := s4.drop letters.length
      match s5 with
      | c :: r =>
        if c = '(' then
          let content := r.takeWhile (fun x => !(x = ')'))
          if content = [] then some letters
          else
            match r.drop content.length with
            | c2 :: _ =>
              if c2 = ')' then some (letters ++ '(' :: (content ++ [')']))
              else some letters
            | [] => some letters
        else some letters
      | [] => some letters

/-- The column regex `` `?(\w+)`?\s+([a-z]+(\([^)]+\))?) `` anchored at the
start, returning (identifier, type token). -/
def matchColDef (s : Str) : Option (Str × Str) :=
  match matchColDefName s with
  | none => none
  | some (name, s2) =>
    match matchColDefType s2 with
    | none => none
    | some dt => some (name, dt)

def splitAtFirst (q : Char) : Str → Option Str
  | [] => none
  | c :: r => if c = q then some [] else (splitAtFirst q r).map (fun t => c :: t)

/-- Python `v.strip().strip("'").strip('"')`. -/
def stripQuotesWs (v : Str) : Str :=
  rstripChar '"' (lstripChar '"' (rstripChar '\'' (lstripChar '\'' (pyStrip v))))

/-- refine.py lines 42-47: `re.match(r"enum\((.*)\)", dtype)`, split the
greedy group on commas, strip whitespace and quotes. -/
def parse_enum_values (dtype : Str) : Option (List Str) :=
  match stripPrefixCI "enum(".toList dtype with
  | none => none
  | some r =>
    match splitAtFirst ')' r.reverse with
    | none => none
    | some revTail =>
      some ((splitOnChar ',' (r.take (r.length - revTail.length - 1))).map stripQuotesWs)

def bareTok (s : Str) : Option Str :=
  let t := s.takeWhile (fun c => !isSpaceChar c && !(c = ','))
  if t = [] then none else some t

/-- The default-literal alternation: a lazily closed single-quoted literal, a
lazily closed double-quoted literal, or a bare token up to a comma/space. -/
def matchDefaultVal (s : Str) : Option Str :=
  match s with
  | [] => none
  | c :: r =>
    if c = '\'' then
      match splitAtFirst '\'' r with
      | some pre => some ('\'' :: (pre ++ ['\'']))
      | none => bareTok (c :: r)
    else if c = '"' then
      match splitAtFirst '"' r with
      | some pre => some ('"' :: (pre ++ ['"']))
      | none => bareTok (c :: r)
    else bareTok (c :: r)

def matchDefaultAt (s : Str) : Option Str :=
  match stripPrefixCI "default".toList s with
  | none => none
  | some r =>
    let sp := r.takeWhile isSpaceChar
    if sp = [] then none else matchDefaultVal (r.drop sp.length)

/-- `re.search(r'default\s+(...)', col_def)`: leftmost match. -/
def findDefault : Str → Option Str
  | [] => none
  | c :: r =>
    match matchDefaultAt (c :: r) with
    | some v => some v
    | none => findDefault r

/-- refine.py lines 49-70.  The whole line is lowercased before parsing. -/
def parse_column_definition (line : Str) (varchar_length : Option Nat) :
    Option ColumnDescriptor :=
  let col_def := pyLower (rstripChar ',' (pyStrip line))
  if col_def = [] ||
      startsAnyOf col_def ["primary".toList, "unique".toList, "key".toList,
        "constraint".toList, "index".toList, ")".toList] then none
  else
    match matchColDef col_def with
    | none => none
    | some (col_name, dtype) =>
      some ⟨col_name, dtype, !(containsSub "not null".toList col_def),
            findDefault col_def, none, varchar_length, parse_enum_values dtype⟩

theorem char_toLower_idem (c : Char) : c.toLower.toLower = c.toLower := by
  show Char.toLower (Char.toLower c) = Char.toLower c
  by_cases h : c.toNat ≥ 65 ∧ c.toNat ≤ 90
  · have h1 : Char.toLower c = Char.ofNat (c.toNat + 32) := by
      unfold Char.toLower
      rw [if_pos h]
    have hv : (Char.ofNat (c.toNat + 32)).toNat = c.toNat + 32 :=
      char_toNat_ofNat_valid (Or.inl (by omega))
    rw [h1]
    unfold Char.toLower
    rw [hv, if_neg (by omega)]
  · have h1 : Char.toLower c = c := by
      unfold Char.toLower
      rw [if_neg h]
    rw [h1, h1]

theorem list_map_self {f : Char → Char} :
    ∀ l : Str, (∀ c ∈ l, f c = c) → l.map f = l := by
  intro l
  induction l with
  | nil => intro _; rfl
  | cons c r ih =>
    intro h
    simp only [List.map_cons, h c (List.mem_cons_self c r),
      ih (fun x hx => h x (List.mem_cons_of_mem c hx))]

theorem matchColDefName_mem {s nm s2 : Str} (h : matchColDefName s = some (nm, s2)) :
    ∀ c ∈ nm, c ∈ s := by
  intro c hc
  match s with
  | [] => simp [matchColDefName] at h
  | b :: r =>
    by_cases hb : b = btick
    · have h1 : matchColDefName (b :: r) =
          (if r.takeWhile isWordChar = [] then none
           else some (r.takeWhile isWordChar, r.drop (r.takeWhile isWordChar).length)) := by
        simp [matchColDefName, hb]
      rw [h1] at h
      split at h
      · simp at h
      · simp only [Option.some.injEq, Prod.mk.injEq] at h
        obtain ⟨h2, _⟩ := h
        subst h2
        exact List.mem_cons_of_mem _ (List.takeWhile_subset _ hc)
    · have h1 : matchColDefName (b :: r) =
          (if (b :: r).takeWhile isWordChar = [] then none
           else some ((b :: r).takeWhile isWordChar,
             (b :: r).drop ((b :: r).takeWhile isWordChar).length)) := by
        simp [matchColDefName, hb]
      rw [h1] at h
      split at h
      · simp at h
      · simp only [Option.some.injEq, Prod.mk.injEq] at h
        obtain ⟨h2, _⟩ := h
        subst h2
        exact List.takeWhile_subset _ hc

theorem matchColDef_name_mem {s nm dt : Str} (h : matchColDef s = some (nm, dt)) :
    ∀ c ∈ nm, c ∈ s := by
  intro c hc
  unfold matchColDef at h
  cases hn : matchColDefName s with
  | none => rw [hn] at h; simp at h
  | some p =>
    obtain ⟨nm2, s2⟩ := p
    simp only [hn] at h
    cases ht : matchColDefType s2 with
    | none => rw [ht] at h; simp at h
    | some dt2 =>
      rw [ht] at h
      simp only [Option.some.injEq, Prod.mk.injEq] at h
      obtain ⟨hnm, _⟩ := h
      subst hnm
      exact matchColDefName_mem hn c hc

/-- Claim C7, corrected.  parse_column_definition lowercases the whole line
before matching, so the recorded name is the lowercased identifier - it is
lowercase-invariant - not the identifier "exactly as it appears
(case-sensitive)". -/
theorem c7_name_lowercased (line : Str) (v : Option Nat) (col : ColumnDescriptor)
    (h : parse_column_definition line v = some col) :
    col.name.map Char.toLower = col.name := by
  unfold parse_column_definition at h
  dsimp only at h
  split at h
  · simp at h
  · cases hm : matchColDef (pyLower (rstripChar ',' (pyStrip line))) with
    | none => rw [hm] at h; simp at h
    | some p =>
      obtain ⟨nm, dt⟩ := p
      simp only [hm, Option.some.injEq] at h
      subst h
      apply list_map_self
      intro c hcm
      have hmemL : c ∈ pyLower (rstripChar ',' (pyStrip line)) :=
        matchColDef_name_mem hm c hcm
      unfold pyLower at hmemL
      obtain ⟨d, _, rfl⟩ := List.mem_map.mp hmemL
      exact char_toLower_idem d

/-- Counterexample to claim C7 as stated: the identifier appears as `Id` in
the input but the recorded name is `id`. -/
theorem c7_name_not_as_captured :
    (parse_column_definition "`Id` INT NOT NULL,".toList none).map ColumnDescriptor.name =
      some "id".toList ∧
    ¬((some "id".toList : Option Str) = some "Id".toList) := by
  refine ⟨by decide, by decide⟩

theorem c7_name_lowercased_witness :
    parse_column_definition "`Id` INT NOT NULL,".toList none =
      some ⟨"id".toList, "int".toList, false, none, none, none, none⟩ ∧
    ("id".toList).map Char.toLower = "id".toList :=
  ⟨by decide,
   c7_name_lowercased "`Id` INT NOT NULL,".toList none
     ⟨"id".toList, "int".toList, false, none, none, none, none⟩ (by decide)⟩

/-! ## Step 1: schema extraction (refine.py lines 100-155) and the pipeline -/

def searchTwoKw (k1 k2 : Str) : Str → Option Str
  | [] => none
  | c :: r =>
    match matchTwoKwAt k1 k2 (c :: r) with
    | some t => some t
    | none => searchTwoKw k1 k2 r

/-- The step-3 header regex `insert into [backtick or quote]?(\w+)[...]?\s+values`
(anchored, case-insensitive, literal single spaces). -/
def matchInsertHeader (s : Str) : Option Str :=
  match stripPrefixCI "insert into ".toList s with
  | none => none
  | some r =>
    let r1 :=
      match r with
      | c :: rest => if c = btick || c = '"' then rest else r
      | [] => r
    let name := r1.takeWhile isWordChar
    if name = [] then none
    else
      let r2 := r1.drop name.length
      let r3 :=
        match r2 with
        | c :: rest => if c = btick || c = '"' then rest else r2
        | [] => r2
      let sp := r3.takeWhile isSpaceChar
      if sp = [] then none
      else
        match stripPrefixCI "values".toList (r3.drop sp.length) with
        | some _ => some name
        | none => none

/-- The step-3 line loop of refine.py (lines 298-322): regroup buffered row
text and repair each completed row with the active column list. -/
def step3Go (md : List (Str × List ColumnDescriptor)) :
    List ColumnDescriptor → Str → Bool → Str → List Str → Str
  | cols, row_buffer, _, out, [] =>
    if row_buffer ≠ [] then out ++ fix_row row_buffer cols else out
  | cols, row_buffer, accumulating, out, line :: rest =>
    let stripped := pyStrip line
    if ("insert into".toList).isPrefixOf (pyLower stripped) then
      let p :=
        if row_buffer ≠ [] then (([] : Str), false, out ++ fix_row row_buffer cols)
        else (row_buffer, accumulating, out)
      let cols2 :=
        match matchInsertHeader stripped with
        | some t => mdGet md t
        | none => cols
      step3Go md cols2 p.1 p.2.1 (p.2.2 ++ line) rest
    else if ("(".toList).isPrefixOf stripped || accumulating then
      let buf2 := row_buffer ++ line
      if ("),".toList).isSuffixOf stripped || (");".toList).isSuffixOf stripped then
        step3Go md cols [] false (out ++ fix_row buf2 cols) rest
      else step3Go md cols buf2 true out rest
    else step3Go md cols row_buffer accumulating (out ++ line) rest

def step3 (md : List (Str × List ColumnDescriptor)) (lines : List Str) : Str :=
  step3Go md [] [] false [] lines

def splitLinesAux (acc : Str) : Str → List Str
  | [] => if acc = [] then [] else [acc.reverse]
  | c :: r =>
    if c = '\n' then (acc.reverse ++ ['\n']) :: splitLinesAux [] r
    else splitLinesAux (c :: acc) r

/-- Line iteration over a text, keeping the newline terminators. -/
def splitLinesKeep (s : Str) : List Str := splitLinesAux [] s

/-- Python dict assignment `m[k] = v`. -/
def dictSet : List (Str × List ColumnDescriptor) → Str → List ColumnDescriptor →
    List (Str × List ColumnDescriptor)
  | [], k, v => [(k, v)]
  | (k0, v0) :: rest, k, v =>
    if k0 = k then (k0, v) :: rest else (k0, v0) :: dictSet rest k v

/-- Python `m[k].append(x)` (no-op on a missing key, which never occurs:
step 1 always installs the key before appending). -/
def dictAppend : List (Str × List ColumnDescriptor) → Str → ColumnDescriptor →
    List (Str × List ColumnDescriptor)
  | [], _, _ => []
  | (k0, v0) :: rest, k, x =>
    if k0 = k then (k0, v0 ++ [x]) :: rest else (k0, v0) :: dictAppend rest k x

structure S1 where
  meta : List (Str × List ColumnDescriptor)
  inside_create : Bool
  create_block : List Str
  current_table : Option Str
  column_index : Nat
  fcreate : Str
  fextra : Str

def s1Init : S1 := ⟨[], false, [], none, 0, [], []⟩

def isExtraStart (low : Str) : Bool :=
  ("create algorithm".toList).isPrefixOf low || ("create view".toList).isPrefixOf low ||
  ("create trigger".toList).isPrefixOf low || ("create procedure".toList).isPrefixOf low ||
  ("create function".toList).isPrefixOf low

def endsSemi (line : Str) : Bool := (";".toList).isSuffixOf (pyStrip line)

/-- The `while not stripped.endswith(";"): line = next(fin)` loop of the
view/trigger/procedure capture: `none` models the StopIteration raised when
the input ends before a closing line. -/
def consumeExtra : List Str → Option (List Str × List Str)
  | [] => none
  | l :: ls =>
    if endsSemi l then some ([l], ls)
    else
      match consumeExtra ls with
      | some (blk, rem) => some (l :: blk, rem)
      | none => none

def step1Aux : Nat → S1 → List Str → Except Unit S1
  | _, st, [] => Except.ok st
  | 0, _, _ :: _ => Except.error ()
  | f + 1, st, line :: rest =>
    let stripped := pyStrip line
    let low := pyLower stripped
    if ("create table".toList).isPrefixOf low then
      let st2 : S1 :=
        match searchTwoKw "create".toList "table".toList stripped with
        | some t =>
          { st with inside_create := true, create_block := [line], column_index := 0,
                    current_table := some t, meta := dictSet st.meta t [] }
        | none =>
          { st with inside_create := true, create_block := [line], column_index := 0 }
      step1Aux f st2 rest
    else if isExtraStart low then
      if endsSemi line then
        step1Aux f { st with fextra := st.fextra ++ line ++ ['\n'] } rest
      else
        match consumeExtra rest with
        | none => Except.error ()
        | some (blk, rem) =>
          step1Aux f { st with fextra := st.fextra ++ line ++ blk.flatten ++ ['\n'] } rem
    else if st.inside_create then
      let av := adjust_varchar_and_key_length line
      let st2 := { st with create_block := st.create_block ++ [av.1] }
      let st3 :=
        match st2.current_table with
        | some t =>
          match parse_column_definition av.1 av.2 with
          | some col =>
            { st2 with
              meta := dictAppend st2.meta t { col with index := some st2.column_index },
              column_index := st2.column_index + 1 }
          | none => st2
        | none => st2
      if endsSemi line then
        step1Aux f
          { st3 with fcreate := st3.fcreate ++ st3.create_block.flatten ++ ['\n'],
                     inside_create := false, current_table := none } rest
      else step1Aux f st3 rest
    else step1Aux f st rest

def step1 (lines : List Str) : Except Unit S1 := step1Aux lines.length s1Init lines

/-- The pipeline: schema extraction, statement partitioning, row repair,
final concatenation.  An exception in step 1 (the StopIteration of an
unterminated side-channel block) aborts the run: no final output exists. -/
def refineModel (base : Str) (lines : List Str) : Except Unit Str :=
  match step1 lines with
  | Except.error e => Except.error e
  | Except.ok st =>
    let io := write_insert_statements lines.flatten
    let refined := step3 st.meta (splitLinesKeep io.1)
    Except.ok (finalOutput base (some st.fcreate) (some refined) (some (st.fextra ++ io.2)))

theorem consumeExtra_none :
    ∀ ls : List Str, (∀ l ∈ ls, endsSemi l = false) → consumeExtra ls = none := by
  intro ls
  induction ls with
  | nil => intro _; rfl
  | cons l r ih =>
    intro h
    simp only [consumeExtra, h l (List.mem_cons_self l r), Bool.false_eq_true, if_false,
      ih (fun x hx => h x (List.mem_cons_of_mem l hx))]

theorem consumeExtra_append :
    ∀ (xs ys : List Str) (blk rem : List Str), (∀ l ∈ ys, endsSemi l = false) →
      consumeExtra (xs ++ ys) = some (blk, rem) →
      ∃ xs', rem = xs' ++ ys ∧ xs'.length < xs.length := by
  intro xs
  induction xs with
  | nil =>
    intro ys blk rem hys h
    rw [List.nil_append, consumeExtra_none ys hys] at h
    simp at h
  | cons x xs' ih =>
    intro ys blk rem hys h
    simp only [List.cons_append, consumeExtra, List.append_eq] at h
    split at h
    · simp only [Option.some.injEq, Prod.mk.injEq] at h
      exact ⟨xs', h.2.symm, by simp⟩
    · cases hc : consumeExtra (xs' ++ ys) with
      | none => rw [hc] at h; simp at h
      | some p =>
        obtain ⟨blk', rem'⟩ := p
        rw [hc] at h
        simp only [Option.some.injEq, Prod.mk.injEq] at h
        obtain ⟨xs'', hx1, hx2⟩ := ih ys blk' rem' hys hc
        refine ⟨xs'', ?_, ?_⟩
        · rw [← h.2, hx1]
        · simp only [List.length_cons]
          omega

theorem extra_not_create_table {low : Str} (h : isExtraStart low = true) :
    ("create table".toList).isPrefixOf low = false := by
  unfold isExtraStart at h
  simp only [Bool.or_eq_true] at h
  rcases h with ((((h | h) | h) | h) | h) <;>
    (obtain ⟨t, rfl⟩ := List.isPrefixOf_iff_prefix.mp h; rfl)

theorem step1Aux_extra_error (f : Nat) (st : S1) (v : Str) (rest : List Str)
    (hv : isExtraStart (pyLower (pyStrip v)) = true)
    (hsemi : endsSemi v = false)
    (hrest : ∀ l ∈ rest, endsSemi l = false) :
    step1Aux (f + 1) st (v :: rest) = Except.error () := by
  simp only [step1Aux]
  rw [extra_not_create_table hv]
  simp only [Bool.false_eq_true, if_false]
  rw [hv]
  simp only [if_true]
  rw [hsemi]
  simp only [Bool.false_eq_true, if_false]
  rw [consumeExtra_none rest hrest]

theorem step1Aux_error :
    ∀ (n : Nat) (pre : List Str) (f : Nat) (st : S1) (v : Str) (rest : List Str),
      pre.length ≤ n →
      pre.length + rest.length + 1 ≤ f →
      isExtraStart (pyLower (pyStrip v)) = true →
      endsSemi v = false →
      (∀ l ∈ rest, endsSemi l = false) →
      step1Aux f st (pre ++ v :: rest) = Except.error () := by
  intro n
  induction n with
  | zero =>
    intro pre f st v rest hn hf hv hsemi hrest
    match pre, hn with
    | [], _ =>
      match f, hf with
      | f + 1, _ => exact step1Aux_extra_error f st v rest hv hsemi hrest
  | succ n ih =>
    intro pre f st v rest hn hf hv hsemi hrest
    match pre with
    | [] =>
      match f, hf with
      | f + 1, _ => exact step1Aux_extra_error f st v rest hv hsemi hrest
    | p :: pre' =>
      match f, hf with
      | f + 1, hf =>
        simp only [List.length_cons] at hn hf
        simp only [List.cons_append, step1Aux]
        split
        · exact ih pre' f _ v rest (by omega) (by omega) hv hsemi hrest
        · split
          · split
            · exact ih pre' f _ v rest (by omega) (by omega) hv hsemi hrest
            · cases hce : consumeExtra (pre' ++ v :: rest) with
              | none => rfl
              | some q =>
                obtain ⟨blk, rem⟩ := q
                have hys : ∀ l ∈ v :: rest, endsSemi l = false := by
                  intro l hl
                  rcases List.mem_cons.mp hl with rfl | hl
                  · exact hsemi
                  · exact hrest l hl
                obtain ⟨xs', hx1, hx2⟩ := consumeExtra_append pre' (v :: rest) blk rem hys hce
                subst hx1
                exact ih xs' f _ v rest (by omega) (by omega) hv hsemi hrest
          · split
            · split
              · exact ih pre' f _ v rest (by omega) (by omega) hv hsemi hrest
              · exact ih pre' f _ v rest (by omega) (by omega) hv hsemi hrest
            · exact ih pre' f _ v rest (by omega) (by omega) hv hsemi hrest

/-- Claim C10.  If the input's last lines open a CREATE
VIEW/TRIGGER/PROCEDURE/FUNCTION/ALGORITHM block whose closing line (one whose
stripped form ends in a semicolon) never arrives before end of input, the
schema-extraction stage hits end of input while consuming the block (the
StopIteration of `next(fin)`), the run aborts, and no final output is
produced. -/
theorem c10_unterminated_block_aborts (base : Str) (pre : List Str) (v : Str)
    (rest : List Str)
    (hv : isExtraStart (pyLower (pyStrip v)) = true)
    (hsemi : endsSemi v = false)
    (hrest : ∀ l ∈ rest, endsSemi l = false) :
    refineModel base (pre ++ v :: rest) = Except.error () := by
  unfold refineModel step1
  rw [step1Aux_error (pre.length) pre (pre ++ v :: rest).length s1Init v rest le_rfl
    (by simp; omega) hv hsemi hrest]

theorem c10_unterminated_block_aborts_witness :
    isExtraStart (pyLower (pyStrip "CREATE VIEW v1 AS SELECT 1".toList)) = true ∧
    endsSemi "CREATE VIEW v1 AS SELECT 1".toList = false ∧
    refineModel "dump".toList ([] ++ "CREATE VIEW v1 AS SELECT 1".toList :: []) =
      Except.error () :=
  ⟨by decide, by decide,
   c10_unterminated_block_aborts "dump".toList [] "CREATE VIEW v1 AS SELECT 1".toList []
     (by decide) (by decide) (by simp)⟩
